import Mathlib

/-!
Verification development for the ai-sidebar chat client.

The embedding below models, in Lean, two source files of the repository:

* `src/unnamed/part_000` — the `ChatInterface` class; in particular the
  allow-list HTML sanitizer `sanitizeHTML` (with its inner `sanitizeNode`,
  `allowedTags` and `allowedAttributes`) and the `sendMessage` credential
  gate.
* `src/ai-services.js` — the `AIServiceManager` class: the bounded
  conversation history (`addToHistory`), provider selection (`setProvider`),
  dispatch (`getAIResponse`), reply extraction from provider responses,
  translation request construction (`translateText`) and `testConnection`.

DOM trees are modelled by the inductive `HtmlNode`; parsing a string into a
tree (`tempDiv.innerHTML = html`) is performed by the browser in the source
and is modelled from the spec here.  JavaScript arrays of turns are Lean
lists; the quirky `Array.prototype.slice(-n)` semantics (including
`slice(-0) = slice(0)`) are modelled explicitly.
-/

/-- A DOM node as seen by `sanitizeNode`: a text node, a comment (any
non-text non-element node, which `sanitizeNode` maps to `null`), or an
element with a tag name, an attribute list (name/value pairs, unique names,
in document order) and a child list. -/
inductive HtmlNode : Type where
  | text (s : String) : HtmlNode
  | comment (s : String) : HtmlNode
  | element (tag : String) (attrs : List (String × String))
      (children : List HtmlNode) : HtmlNode

/-- ASCII lower-casing of one character, as `String.prototype.toLowerCase`
acts on the ASCII letters that appear in HTML tag and attribute names. -/
def lowerChar (c : Char) : Char :=
  match c with
  | 'A' => 'a' | 'B' => 'b' | 'C' => 'c' | 'D' => 'd' | 'E' => 'e'
  | 'F' => 'f' | 'G' => 'g' | 'H' => 'h' | 'I' => 'i' | 'J' => 'j'
  | 'K' => 'k' | 'L' => 'l' | 'M' => 'm' | 'N' => 'n' | 'O' => 'o'
  | 'P' => 'p' | 'Q' => 'q' | 'R' => 'r' | 'S' => 's' | 'T' => 't'
  | 'U' => 'u' | 'V' => 'v' | 'W' => 'w' | 'X' => 'x' | 'Y' => 'y'
  | 'Z' => 'z' | c => c

/-- `toLowerCase` on a string, character-wise. -/
def lowerStr (s : String) : String := ⟨s.data.map lowerChar⟩

/-- `value.startsWith(p)` from JavaScript. -/
def startsWithStr (s p : String) : Bool := p.data.isPrefixOf s.data

mutual

/-- `node.textContent`: the concatenation of all descendant text nodes
(comments contribute nothing). -/
def textContent : HtmlNode → String
  | .text s => s
  | .comment _ => ""
  | .element _ _ children => textContentList children

/-- `textContent` of a list of sibling nodes, concatenated in order. -/
def textContentList : List HtmlNode → String
  | [] => ""
  | n :: ns => textContent n ++ textContentList ns

end

/-- The `allowedTags` table of `sanitizeHTML` (src/unnamed/part_000 lines
531–546): tag name to allowed attribute names. -/
def allowedTags : List (String × List String) :=
  [ ("p", []),
    ("h1", []), ("h2", []), ("h3", []), ("h4", []), ("h5", []), ("h6", []),
    ("ul", []), ("ol", []), ("li", []),
    ("blockquote", []),
    ("code", []),
    ("pre", []),
    ("strong", []), ("b", []),
    ("em", []), ("i", []),
    ("a", ["href"]),
    ("hr", []),
    ("table", []), ("thead", []), ("tbody", []), ("tr", []), ("th", []),
    ("td", []),
    ("img", ["src", "alt"]),
    ("br", []),
    ("span", ["class"]) ]

/-- `allowedTags[tagName]` lookup (a missing key is JavaScript `undefined`,
which is falsy). -/
def lookupTag (tagName : String) : Option (List String) :=
  (allowedTags.find? (fun p => p.1 = tagName)).map (·.2)

/-- The property names a plain JavaScript object inherits from
`Object.prototype`: `allowedTags[tagName]` on any of these names yields
the inherited truthy, non-array value instead of `undefined`, so the
`!allowedTags[tagName]` check at line 569 wrongly passes. -/
def objectProtoKeys : List String :=
  ["constructor", "hasOwnProperty", "isPrototypeOf",
   "propertyIsEnumerable", "toLocaleString", "toString", "valueOf",
   "__defineGetter__", "__defineSetter__", "__lookupGetter__",
   "__lookupSetter__", "__proto__"]

/-- The `allowedAttributes` validator table (src/unnamed/part_000 lines
548–553): attribute name to value predicate; a missing key is `undefined`.
The JS object also inherits truthy `Object.prototype` entries, but the
lookup at line 582 is reachable only after `allowedTags[tagName]
.includes(attrName)` succeeds, and every array in `allowedTags` holds only
the four own keys below, so the prototype chain is masked on every
reachable path and the table model is exact there. -/
def attrValidator (name : String) : Option (String → Bool) :=
  match name with
  | "href" => some (fun v =>
      startsWithStr v "http://" || startsWithStr v "https://" ||
      startsWithStr v "#")
  | "src" => some (fun v =>
      startsWithStr v "http://" || startsWithStr v "https://" ||
      startsWithStr v "data:")
  | "alt" => some (fun _ => true)
  | "class" => some (fun _ => true)
  | _ => none

/-- The attribute-copy step of `sanitizeNode` for one attribute of an
element whose tag has allowed-name list `names`: the attribute is kept
(with lower-cased name, original value) iff its lower-cased name is in
`names` AND the validator table has an entry for it AND that validator
accepts the value (lines 577–586). -/
def admitAttr (names : List String) (attr : String × String) :
    Option (String × String) :=
  let attrName := lowerStr attr.1
  let attrValue := attr.2
  if names.contains attrName &&
      (match attrValidator attrName with
       | some f => f attrValue
       | none => false) then
    some (attrName, attrValue)
  else
    none

mutual

/-- `sanitizeNode` (src/unnamed/part_000 lines 560–600): a text node is
cloned; an element whose lower-cased tag makes `allowedTags[tagName]`
falsy becomes a text node holding its `textContent`; an allowed element
is rebuilt with only admitted attributes and recursively sanitized
children; any other node kind yields `null` (here `none`).  A tag that is
an `Object.prototype` key hits the inherited truthy value, so the element
is NOT flattened: it is rebuilt (the attribute loop then throws on any
attribute — see `sanitizeNodeE`; this total function gives the value of
the run when it returns, i.e. when such elements carry no attribute, and
then no attribute is copied). -/
def sanitizeNode : HtmlNode → Option HtmlNode
  | .text s => some (.text s)
  | .comment _ => none
  | .element tag attrs children =>
    let tagName := lowerStr tag
    match lookupTag tagName with
    | none =>
      if objectProtoKeys.contains tagName then
        some (.element tagName [] (sanitizeNodes children))
      else some (.text (textContentList children))
    | some names =>
      some (.element tagName (attrs.filterMap (admitAttr names))
        (sanitizeNodes children))

/-- The child loop of `sanitizeNode` / the top-level loop of
`sanitizeHTML`: sanitize each node, dropping the `null` results. -/
def sanitizeNodes : List HtmlNode → List HtmlNode
  | [] => []
  | n :: ns =>
    match sanitizeNode n with
    | some n' => n' :: sanitizeNodes ns
    | none => sanitizeNodes ns

end

mutual

/-- `sanitizeNode` with its error path explicit: for a tag that is an
`Object.prototype` key, `allowedTags[tagName]` is the inherited truthy
non-array value, so the element passes the line-569 check, and the
attribute loop at line 581 calls `.includes` on that value — a
`TypeError` on the first iteration, i.e. whenever the element has any
attribute.  Nothing catches the error, so it propagates out of
`sanitizeHTML`. -/
def sanitizeNodeE : HtmlNode → Except String (Option HtmlNode)
  | .text s => .ok (some (.text s))
  | .comment _ => .ok none
  | .element tag attrs children =>
    let tagName := lowerStr tag
    match lookupTag tagName with
    | some names =>
      match sanitizeNodesE children with
      | .error e => .error e
      | .ok cs =>
        .ok (some (.element tagName
          (attrs.filterMap (admitAttr names)) cs))
    | none =>
      if objectProtoKeys.contains tagName then
        if attrs.isEmpty then
          match sanitizeNodesE children with
          | .error e => .error e
          | .ok cs => .ok (some (.element tagName [] cs))
        else
          .error "TypeError: allowedTags[tagName].includes is not a function"
      else .ok (some (.text (textContentList children)))

/-- The child loop of `sanitizeNode` / the top-level loop of
`sanitizeHTML`, with thrown errors propagated. -/
def sanitizeNodesE : List HtmlNode → Except String (List HtmlNode)
  | [] => .ok []
  | n :: ns =>
    match sanitizeNodeE n with
    | .error e => .error e
    | .ok none => sanitizeNodesE ns
    | .ok (some n') =>
      match sanitizeNodesE ns with
      | .error e => .error e
      | .ok ns' => .ok (n' :: ns')

end

/-- The HTML void elements, which serialize without a closing tag and can
hold no children. -/
def voidTags : List String :=
  ["area", "base", "br", "col", "embed", "hr", "img", "input", "link",
   "meta", "param", "source", "track", "wbr"]

/-- Escaping of one text-node character in `innerHTML` serialization. -/
def escTextChar (c : Char) : List Char :=
  match c with
  | '&' => ['&', 'a', 'm', 'p', ';']
  | '<' => ['&', 'l', 't', ';']
  | '>' => ['&', 'g', 't', ';']
  | c => [c]

/-- Escaping of one attribute-value character in `innerHTML`
serialization. -/
def escAttrChar (c : Char) : List Char :=
  match c with
  | '&' => ['&', 'a', 'm', 'p', ';']
  | '"' => ['&', 'q', 'u', 'o', 't', ';']
  | c => [c]

/-- Escape a text node for serialization. -/
def escapeText (s : String) : String :=
  ⟨s.data.foldr (fun c acc => escTextChar c ++ acc) []⟩

/-- Escape an attribute value for serialization. -/
def escapeAttr (s : String) : String :=
  ⟨s.data.foldr (fun c acc => escAttrChar c ++ acc) []⟩

/-- Serialize one attribute as ` name="value"`. -/
def serializeAttr (a : String × String) : String :=
  " " ++ a.1 ++ "=\"" ++ escapeAttr a.2 ++ "\""

/-- Serialize an attribute list. -/
def serializeAttrs (attrs : List (String × String)) : String :=
  attrs.foldr (fun a acc => serializeAttr a ++ acc) ""

mutual

/-- `innerHTML` serialization of one node (the read of `tempDiv.innerHTML`
at src/unnamed/part_000 line 614). -/
def serializeNode : HtmlNode → String
  | .text s => escapeText s
  | .comment s => "<!--" ++ s ++ "-->"
  | .element tag attrs children =>
    if voidTags.contains tag then
      "<" ++ tag ++ serializeAttrs attrs ++ ">"
    else
      "<" ++ tag ++ serializeAttrs attrs ++ ">" ++
        serializeNodes children ++ "</" ++ tag ++ ">"

/-- `innerHTML` serialization of a sibling list. -/
def serializeNodes : List HtmlNode → String
  | [] => ""
  | n :: ns => serializeNode n ++ serializeNodes ns

end

/-! ### HTML parsing, modelled from the spec

`sanitizeHTML` parses its input by assigning `tempDiv.innerHTML = html`;
the parsing itself is done by the browser, not by repository code.  The
definitions below are modelled from the spec: "a parser that recovers via
normal HTML error-recovery is assumed available as an external
collaborator" (§4.4) — a recovering tag/attribute parser that never fails:
unmatched close tags are ignored, open elements are auto-closed at end of
input, void elements take no children, `script`/`style` contents are raw
text, and character entities in text and attribute values are decoded. -/

/-- A lexical token of the HTML input. -/
inductive HtmlTok : Type where
  | textTok (s : String) : HtmlTok
  | openTok (tag : String) (attrs : List (String × String))
      (selfClosing : Bool) : HtmlTok
  | closeTok (tag : String) : HtmlTok
  | commentTok (s : String) : HtmlTok

/-- HTML whitespace. -/
def isSpaceChar (c : Char) : Bool :=
  c = ' ' || c = '\t' || c = '\n' || c = '\r' || c = '\x0c'

/-- A character that may appear in a tag name. -/
def isNameChar (c : Char) : Bool := c.isAlpha || c.isDigit || c = '-'

/-- A string the lexer could have produced as a tag name: nonempty, with
a leading ASCII letter and name characters throughout. -/
def tagNameOk (t : String) : Bool :=
  (match t.data with
   | [] => false
   | c :: _ => c.isAlpha) &&
  t.data.all isNameChar

/-- Decode one character entity; the argument is the input just after an
ampersand.  Unknown sequences leave the ampersand literal. -/
def decodeEntity (cs : List Char) : Option (Char × List Char) :=
  match cs with
  | 'a' :: 'm' :: 'p' :: ';' :: r => some ('&', r)
  | 'l' :: 't' :: ';' :: r => some ('<', r)
  | 'g' :: 't' :: ';' :: r => some ('>', r)
  | 'q' :: 'u' :: 'o' :: 't' :: ';' :: r => some ('"', r)
  | '#' :: '3' :: '9' :: ';' :: r => some ('\'', r)
  | _ => none

/-- Read character data up to the next `<` (or end of input), decoding
entities.  Returns the decoded text and the unconsumed input. -/
def readText (fuel : Nat) (cs : List Char) (acc : List Char) :
    List Char × List Char :=
  match fuel with
  | 0 => (acc.reverse, cs)
  | fuel + 1 =>
    match cs with
    | [] => (acc.reverse, [])
    | '<' :: _ => (acc.reverse, cs)
    | '&' :: r =>
      match decodeEntity r with
      | some (c, r') => readText fuel r' (c :: acc)
      | none => readText fuel r ('&' :: acc)
    | c :: r => readText fuel r (c :: acc)

/-- Read a tag name (letters, digits, hyphens). -/
def readName (fuel : Nat) (cs : List Char) (acc : List Char) :
    List Char × List Char :=
  match fuel with
  | 0 => (acc.reverse, cs)
  | fuel + 1 =>
    match cs with
    | c :: r => if isNameChar c then readName fuel r (c :: acc)
                else (acc.reverse, cs)
    | [] => (acc.reverse, [])

/-- Read an attribute value after `=`: double- or single-quoted (entities
decoded) or unquoted (up to whitespace or `>`). -/
def readAttrValue (fuel : Nat) (quote : Option Char) (cs : List Char)
    (acc : List Char) : List Char × List Char :=
  match fuel with
  | 0 => (acc.reverse, cs)
  | fuel + 1 =>
    match cs with
    | [] => (acc.reverse, [])
    | '&' :: r =>
      match decodeEntity r with
      | some (c, r') => readAttrValue fuel quote r' (c :: acc)
      | none => readAttrValue fuel quote r ('&' :: acc)
    | c :: r =>
      match quote with
      | some q => if c = q then (acc.reverse, r)
                  else readAttrValue fuel quote r (c :: acc)
      | none => if isSpaceChar c || c = '>' then (acc.reverse, cs)
                else readAttrValue fuel quote r (c :: acc)

/-- Read the attribute list of an open tag, up to the closing `>` (or
`/>`); attribute names are lower-cased and a repeated name keeps its first
occurrence, as the DOM does.  Returns the attributes, whether the tag was
self-closing, and the unconsumed input. -/
def readAttrs (fuel : Nat) (cs : List Char)
    (acc : List (String × String)) :
    List (String × String) × Bool × List Char :=
  match fuel with
  | 0 => (acc.reverse, false, cs)
  | fuel + 1 =>
    match cs with
    | [] => (acc.reverse, false, [])
    | '>' :: r => (acc.reverse, false, r)
    | '/' :: '>' :: r => (acc.reverse, true, r)
    | '/' :: r => readAttrs fuel r acc
    | c :: r =>
      if isSpaceChar c then readAttrs fuel r acc
      else
        let (nm, r1) := readAttrName fuel (c :: r) []
        let name := lowerStr ⟨nm⟩
        let r2 := dropSpaces fuel r1
        match r2 with
        | '=' :: r3 =>
          let r4 := dropSpaces fuel r3
          let (v, r5) :=
            match r4 with
            | '"' :: r5 => readAttrValue fuel (some '"') r5 []
            | '\'' :: r5 => readAttrValue fuel (some '\'') r5 []
            | _ => readAttrValue fuel none r4 []
          if acc.any (fun a => a.1 = name) then readAttrs fuel r5 acc
          else readAttrs fuel r5 ((name, ⟨v⟩) :: acc)
        | _ =>
          if acc.any (fun a => a.1 = name) then readAttrs fuel r2 acc
          else readAttrs fuel r2 ((name, "") :: acc)

where
  /-- Read an attribute name: up to whitespace, `=`, `>` or `/`. -/
  readAttrName (fuel : Nat) (cs : List Char) (acc : List Char) :
      List Char × List Char :=
    match fuel with
    | 0 => (acc.reverse, cs)
    | fuel + 1 =>
      match cs with
      | [] => (acc.reverse, [])
      | c :: r =>
        if isSpaceChar c || c = '=' || c = '>' || c = '/' then
          (acc.reverse, cs)
        else readAttrName fuel r (c :: acc)
  /-- Skip whitespace. -/
  dropSpaces (fuel : Nat) (cs : List Char) : List Char :=
    match fuel with
    | 0 => cs
    | fuel + 1 =>
      match cs with
      | c :: r => if isSpaceChar c then dropSpaces fuel r else cs
      | [] => []

/-- Consume input through the first `>`. -/
def dropUntilGt (fuel : Nat) (cs : List Char) : List Char :=
  match fuel with
  | 0 => cs
  | fuel + 1 =>
    match cs with
    | '>' :: r => r
    | _ :: r => dropUntilGt fuel r
    | [] => []

/-- Read a comment body up to `-->`. -/
def readComment (fuel : Nat) (cs : List Char) (acc : List Char) :
    String × List Char :=
  match fuel with
  | 0 => (⟨acc.reverse⟩, cs)
  | fuel + 1 =>
    match cs with
    | '-' :: '-' :: '>' :: r => (⟨acc.reverse⟩, r)
    | c :: r => readComment fuel r (c :: acc)
    | [] => (⟨acc.reverse⟩, [])

/-- Does the input start with `</tag` (case-insensitively)? -/
def matchesCloseTag (tagL : List Char) (cs : List Char) : Bool :=
  match cs with
  | '<' :: '/' :: r => tagL.isPrefixOf (r.map lowerChar)
  | _ => false

/-- Read raw text content (for `script` / `style`) up to the matching
close tag, without entity decoding. -/
def readRaw (fuel : Nat) (tagL : List Char) (cs : List Char)
    (acc : List Char) : String × List Char :=
  match fuel with
  | 0 => (⟨acc.reverse⟩, cs)
  | fuel + 1 =>
    match cs with
    | [] => (⟨acc.reverse⟩, [])
    | c :: r =>
      if matchesCloseTag tagL cs then (⟨acc.reverse⟩, cs)
      else readRaw fuel tagL r (c :: acc)

/-- Lexer: split the input into tags, comments and character data. -/
def tokenize (fuel : Nat) (cs : List Char) : List HtmlTok :=
  match fuel with
  | 0 => []
  | fuel + 1 =>
    match cs with
    | [] => []
    | '<' :: '!' :: '-' :: '-' :: r =>
      let (cmt, r') := readComment fuel r []
      .commentTok cmt :: tokenize fuel r'
    | '<' :: '/' :: c :: r =>
      if c.isAlpha then
        let (nm, r1) := readName fuel (c :: r) []
        let r2 := dropUntilGt fuel r1
        .closeTok (lowerStr ⟨nm⟩) :: tokenize fuel r2
      else
        -- bogus close tag: consumed as a comment up to the next `>`
        .commentTok "" :: tokenize fuel (dropUntilGt fuel (c :: r))
    | '<' :: c :: r =>
      if c.isAlpha then
        let (nm, r1) := readName fuel (c :: r) []
        let tag := lowerStr ⟨nm⟩
        let (attrs, selfC, r2) := readAttrs fuel r1 []
        if (tag = "script" || tag = "style") && !selfC then
          let (raw, r3) := readRaw fuel tag.data r2 []
          .openTok tag attrs false :: .textTok raw :: tokenize fuel r3
        else
          .openTok tag attrs selfC :: tokenize fuel r2
      else
        -- `<` not opening a tag: literal text
        .textTok "<" :: tokenize fuel (c :: r)
    | ['<'] => [.textTok "<"]
    | _ =>
      let (txt, r') := readText fuel cs []
      .textTok ⟨txt⟩ :: tokenize fuel r'

/-- Prepend a node to a sibling list as the DOM builder does: empty text
is not materialized and adjacent character data coalesces into one text
node. -/
def consNode (n : HtmlNode) (ns : List HtmlNode) : List HtmlNode :=
  match n with
  | .text s =>
    if s = "" then ns
    else
      match ns with
      | .text s' :: rest => .text (s ++ s') :: rest
      | _ => .text s :: ns
  | _ => n :: ns

/-- Tree construction from the token stream: `stop` is the enclosing
element's tag, whose close tag ends the sibling list; an unmatched close
tag is ignored; void and self-closed elements take no children; open
elements are closed at end of input. -/
def buildNodes (fuel : Nat) (stop : Option String) (toks : List HtmlTok) :
    List HtmlNode × List HtmlTok :=
  match fuel with
  | 0 => ([], toks)
  | fuel + 1 =>
    match toks with
    | [] => ([], [])
    | .textTok s :: rest =>
      let (ns, r) := buildNodes fuel stop rest
      (consNode (.text s) ns, r)
    | .commentTok s :: rest =>
      let (ns, r) := buildNodes fuel stop rest
      (.comment s :: ns, r)
    | .closeTok t :: rest =>
      if stop = some t then ([], rest)
      else buildNodes fuel stop rest
    | .openTok t attrs sc :: rest =>
      if voidTags.contains t || sc then
        let (ns, r) := buildNodes fuel stop rest
        (.element t attrs [] :: ns, r)
      else
        let (children, r1) := buildNodes fuel (some t) rest
        let (ns, r2) := buildNodes fuel stop r1
        (.element t attrs children :: ns, r2)

/-- Modelled from the spec: the browser's parsing of `tempDiv.innerHTML =
html` (src/unnamed/part_000 lines 556–557), an external collaborator per
§4.4 of the spec; it recovers from malformed input and never throws. -/
def parseHTML (html : String) : List HtmlNode :=
  let cs := html.data
  let toks := tokenize (cs.length + 1) cs
  (buildNodes (toks.length + 1) none toks).1

/-- `sanitizeHTML` (src/unnamed/part_000 lines 530–615): parse the input,
sanitize every top-level node dropping `null` results, and serialize the
surviving nodes back to a string.  This total composition gives the
string the source returns when it returns; `sanitizeHTMLE` carries the
thrown `TypeError` too. -/
def sanitizeHTML (html : String) : String :=
  serializeNodes (sanitizeNodes (parseHTML html))

/-- `sanitizeHTML` with its error path explicit: the `TypeError` thrown
by the attribute loop on an `Object.prototype`-keyed element propagates
out of the function. -/
def sanitizeHTMLE (html : String) : Except String String :=
  match sanitizeNodesE (parseHTML html) with
  | .error e => .error e
  | .ok out => .ok (serializeNodes out)

mutual

/-- The elements that can survive sanitization: those whose tag is an own
key of `allowedTags`, and — through the prototype chain — those whose tag
is an `Object.prototype` key. -/
def nodeKeptB : HtmlNode → Bool
  | .text _ => true
  | .comment _ => false
  | .element tag _ children =>
    ((lookupTag tag).isSome || objectProtoKeys.contains tag) &&
    nodesKeptB children

/-- `nodeKeptB` over a sibling list. -/
def nodesKeptB : List HtmlNode → Bool
  | [] => true
  | n :: ns => nodeKeptB n && nodesKeptB ns

end

mutual

/-- Is every element in this tree allow-listed?  (Text is always fine;
comments and other non-element node kinds never survive sanitization.) -/
def nodeAllowedB : HtmlNode → Bool
  | .text _ => true
  | .comment _ => false
  | .element tag _ children =>
    (lookupTag tag).isSome && nodesAllowedB children

/-- `nodeAllowedB` over a sibling list. -/
def nodesAllowedB : List HtmlNode → Bool
  | [] => true
  | n :: ns => nodeAllowedB n && nodesAllowedB ns

end

/-- The attribute-value validators in the words of the spec (refinement
reference, to compare with `attrValidator` from the source): `href` must
start with `http://`, `https://`, or `#`; `src` must start with
`http://`, `https://`, or `data:`; `alt` and `class` always pass; any
other attribute name has no validator and never passes. -/
def specAttrValueOk (name value : String) : Bool :=
  if name = "href" then
    startsWithStr value "http://" || startsWithStr value "https://" ||
      startsWithStr value "#"
  else if name = "src" then
    startsWithStr value "http://" || startsWithStr value "https://" ||
      startsWithStr value "data:"
  else if name = "alt" then true
  else if name = "class" then true
  else false

/-! ### `AIServiceManager` (src/ai-services.js)

Network calls (`fetch`) are external; a call's awaited outcome is passed
to the model as an explicit `Except String String` value (`.error` models
a thrown `Error` with its message, `.ok` the extracted reply string). -/

/-- One entry of `conversationHistory`: `{ role, content }`. -/
structure Turn : Type where
  role : String
  content : String
deriving DecidableEq

/-- The mutable state of an `AIServiceManager` instance. -/
structure Manager : Type where
  currentProvider : String
  conversationHistory : List Turn
  maxHistoryLength : Nat
deriving DecidableEq

/-- The `AIServiceManager` constructor (src/ai-services.js lines 5–9). -/
def Manager.new : Manager :=
  { currentProvider := "openai", conversationHistory := [],
    maxHistoryLength := 10 }

/-- The provider ids accepted by `setProvider`. -/
def knownProviders : List String := ["openai", "mistral", "gemini"]

/-- `setProvider` (lines 12–18): switch if the id is known, returning
whether it switched. -/
def setProvider (m : Manager) (provider : String) : Bool × Manager :=
  if knownProviders.contains provider then
    (true, { m with currentProvider := provider })
  else
    (false, m)

/-- JavaScript `arr.slice(-n)` on an array of turns.  `-0 === 0`, so for
`n = 0` this is `slice(0)`: the whole array, not the empty one. -/
def jsSliceFromEnd (n : Nat) (l : List Turn) : List Turn :=
  if n = 0 then l else l.drop (l.length - n)

/-- `addToHistory` (lines 29–36) on the history list: push, then if the
length exceeds `maxLen`, keep `slice(-maxLen)`. -/
def addToHistoryCore (maxLen : Nat) (history : List Turn) (t : Turn) :
    List Turn :=
  let h := history ++ [t]
  if h.length > maxLen then jsSliceFromEnd maxLen h else h

/-- `addToHistory` as a method of the manager. -/
def Manager.addToHistory (m : Manager) (role content : String) : Manager :=
  { m with conversationHistory :=
      (addToHistoryCore m.maxHistoryLength m.conversationHistory
        ⟨role, content⟩) }

/-- `clearHistory` (lines 39–41). -/
def Manager.clearHistory (m : Manager) : Manager :=
  { m with conversationHistory := [] }

/-- `getConversationContext` (lines 44–49): a fresh copy of the history. -/
def getConversationContext (m : Manager) : List Turn :=
  m.conversationHistory.map (fun msg => ⟨msg.role, msg.content⟩)

/-- `getAIResponse` (lines 52–82): append the user turn; switch on the
provider (a known provider awaits its `callX`, whose outcome is
`callResult`; an unknown one throws `Unknown AI provider`); on success
append the assistant turn and return the response; on error re-throw it
unchanged. -/
def getAIResponse (m : Manager) (callResult : Except String String)
    (userMessage : String) : Except String String × Manager :=
  let m1 := m.addToHistory "user" userMessage
  if knownProviders.contains m1.currentProvider then
    match callResult with
    | .ok response => (.ok response, m1.addToHistory "assistant" response)
    | .error e => (.error e, m1)
  else
    (.error "Unknown AI provider", m1)

/-- One provider's entry in `AI_CONFIG` (src/config.js). -/
structure ProviderConfig : Type where
  apiKey : String
  endpoint : String
  model : String
  maxTokens : Nat
  temperature : ℚ

/-- The JSON body a `translateText` branch sends: OpenAI and Mistral use
`{model, messages, max_tokens, temperature, stream}`, Gemini uses
`{contents, generationConfig:{maxOutputTokens, temperature}}`. -/
inductive TranslateRequestBody : Type where
  | openaiLike (model : String) (messages : List Turn)
      (maxTokensField : Nat) (temperatureField : ℚ) (stream : Bool)
  | geminiLike (contents : List (String × List String))
      (maxOutputTokens : Nat) (temperatureField : ℚ)

/-- The `max_tokens` / `maxOutputTokens` field of a translation request. -/
def TranslateRequestBody.maxTokensOf : TranslateRequestBody → Nat
  | .openaiLike _ _ mt _ _ => mt
  | .geminiLike _ mt _ => mt

/-- The `temperature` field of a translation request. -/
def TranslateRequestBody.temperatureOf : TranslateRequestBody → ℚ
  | .openaiLike _ _ _ tp _ => tp
  | .geminiLike _ _ tp => tp

/-- The translation system prompt of `translateText` (line 210). -/
def translateSystemPrompt (sourceLang targetLang : String) : String :=
  "You are a translation engine. Translate the user text into " ++
  targetLang ++ ". If a source language is provided (" ++ sourceLang ++
  "), respect it; otherwise auto-detect. Return only the translated text with no extra commentary."

/-- The request body constructed by `translateText` (lines 208–296) for
the active provider; `none` models the `Unknown provider` throw of the
default branch.  Each branch sends `max_tokens: Math.min(1000,
config.maxTokens)` and `temperature: 0.2`. -/
def translateRequestBody (provider : String) (config : ProviderConfig)
    (text sourceLang targetLang : String) : Option TranslateRequestBody :=
  let systemPrompt := translateSystemPrompt sourceLang targetLang
  if provider = "openai" || provider = "mistral" then
    some (.openaiLike config.model
      [⟨"system", systemPrompt⟩, ⟨"user", text⟩]
      (min 1000 config.maxTokens) (0.2 : ℚ) false)
  else if provider = "gemini" then
    some (.geminiLike [("user", [systemPrompt]), ("user", [text])]
      (min 1000 config.maxTokens) (0.2 : ℚ))
  else
    none

/-- The record returned by `testConnection`. -/
inductive TestResult : Type where
  | ok (provider : String) (response : String) : TestResult
  | failed (provider : String) (error : String) : TestResult
deriving DecidableEq

/-- JavaScript `provider || this.currentProvider` (line 300): the current
provider is used when the argument is `null` or the empty string. -/
def jsOrProvider (provider : Option String) (current : String) : String :=
  match provider with
  | some p => if p = "" then current else p
  | none => current

/-- `testConnection` (lines 299–318): resolve the provider to test, switch
to it with `setProvider`, run `getAIResponse` with a canned probe message,
and report success or failure; the provider switch is never undone. -/
def testConnection (m : Manager) (callResult : Except String String)
    (provider : Option String) : TestResult × Manager :=
  let testProvider := jsOrProvider provider m.currentProvider
  let m1 := (setProvider m testProvider).2
  match getAIResponse m1 callResult "Hello, this is a test message." with
  | (.ok r, m2) => (.ok testProvider r, m2)
  | (.error e, m2) => (.failed testProvider e, m2)

/-! ### The `sendMessage` credential gate (src/unnamed/part_000) -/

/-- JavaScript `String.prototype.trim`. -/
def trimStr (s : String) : String :=
  ⟨((s.data.dropWhile isSpaceChar).reverse.dropWhile isSpaceChar).reverse⟩

/-- What a `sendMessage` call amounted to: an empty/in-flight input is
ignored; a missing credential produces the configuration system message;
otherwise the dispatch ran and replied or errored. -/
inductive SendOutcome : Type where
  | ignored : SendOutcome
  | configError (message : String) : SendOutcome
  | replied (response : String) : SendOutcome
  | errored (message : String) : SendOutcome
deriving DecidableEq

/-- The configuration system message shown by `sendMessage` (line 352). -/
def configErrorMessage (providerName : String) : String :=
  "⚠️ **Please configure your " ++ providerName ++
  " API key**\n\nAdd your API key in `config.js`"

/-- `sendMessage` (src/unnamed/part_000 lines 345–386), restricted to its
effect on the manager: trim the input and ignore it if empty or a request
is in flight; if the active provider's `apiKey` is falsy or blank after
trimming, show the configuration message and return without touching the
manager; otherwise run `getAIResponse` (whose network outcome is
`callResult`), showing the reply or an error chat line. -/
def sendMessage (m : Manager) (apiKey : String) (isProcessing : Bool)
    (callResult : Except String String) (input : String) :
    SendOutcome × Manager :=
  let message := trimStr input
  if message = "" || isProcessing then
    (.ignored, m)
  else if apiKey = "" || trimStr apiKey = "" then
    (.configError (configErrorMessage m.currentProvider), m)
  else
    match getAIResponse m callResult message with
    | (.ok r, m') => (.replied r, m')
    | (.error e, m') =>
      (.errored ("Sorry, I encountered an error: " ++ e), m')

mutual

/-- Normalization of a node: normalize the children of elements. -/
def normalizeNode : HtmlNode → HtmlNode
  | .text s => .text s
  | .comment s => .comment s
  | .element tag attrs children => .element tag attrs (normalizeNodes children)

/-- Normalization of a sibling list: drop empty text nodes and merge
adjacent text nodes (the `consNode` discipline the tree builder applies),
recursively.  Parsing the serialization of a tree yields its
normalization. -/
def normalizeNodes : List HtmlNode → List HtmlNode
  | [] => []
  | n :: ns => consNode (normalizeNode n) (normalizeNodes ns)

end

mutual

/-- The token sequence the lexer recovers from the serialization of one
normalized sanitizer-output node. -/
def toksOfNode : HtmlNode → List HtmlTok
  | .text s => [.textTok s]
  | .comment s => [.commentTok s]
  | .element tag attrs children =>
    if voidTags.contains tag then [.openTok tag attrs false]
    else .openTok tag attrs false ::
      (toksOfForest children ++ [.closeTok tag])

/-- `toksOfNode` over a sibling list. -/
def toksOfForest : List HtmlNode → List HtmlTok
  | [] => []
  | n :: ns => toksOfNode n ++ toksOfForest ns

end

/-- Is the head of a sibling list not a text node? -/
def headNotText : List HtmlNode → Bool
  | .text _ :: _ => false
  | _ => true

mutual

/-- Well-formedness of one sanitizer-output element: its tag is
allow-listed (hence lowercase), its attributes are fixed points of
attribute admission with pairwise-distinct lowercase names, void
elements are childless, and its children are a well-formed normalized
sibling list. -/
def normWFNode : HtmlNode → Bool
  | .text _ => true
  | .comment _ => false
  | .element tag attrs children =>
    (match lookupTag tag with
     | some names =>
       decide (attrs.filterMap (admitAttr names) = attrs) &&
       decide ((attrs.map Prod.fst).Nodup) &&
       decide (attrs.map Prod.fst = attrs.map (fun a => lowerStr a.1)) &&
       (!(voidTags.contains tag) || children.isEmpty) &&
       normWFForest children
     | none =>
       objectProtoKeys.contains tag && tagNameOk tag &&
       decide (lowerStr tag = tag) && attrs.isEmpty &&
       normWFForest children)

/-- Well-formedness of a normalized sanitizer-output sibling list: all
nodes well formed, text nodes nonempty and never adjacent. -/
def normWFForest : List HtmlNode → Bool
  | [] => true
  | .text s :: ns =>
    (!(s = "")) && headNotText ns && normWFForest ns
  | n :: ns => normWFNode n && normWFForest ns

end

/-- The lexer run with its canonical fuel (the input length). -/
def tokenizeC (cs : List Char) : List HtmlTok := tokenize cs.length cs

/-- The tree builder run with its canonical fuel. -/
def buildNodesC (stop : Option String) (toks : List HtmlTok) :
    List HtmlNode × List HtmlTok :=
  buildNodes (toks.length + 1) stop toks

/-- Character-list form of text-node escaping. -/
def escTextL (l : List Char) : List Char :=
  l.foldr (fun c acc => escTextChar c ++ acc) []

/-- Character-list form of attribute-value escaping. -/
def escAttrL (l : List Char) : List Char :=
  l.foldr (fun c acc => escAttrChar c ++ acc) []

mutual

/-- Structural well-formedness of every node the spec-modelled parser
produces: attribute names pairwise distinct and lower-case, tags
lower-case, void elements childless. -/
def wfParseNode : HtmlNode → Bool
  | .text _ => true
  | .comment _ => true
  | .element tag attrs children =>
    decide ((attrs.map Prod.fst).Nodup) &&
    decide (attrs.map Prod.fst = attrs.map (fun a => lowerStr a.1)) &&
    decide (lowerStr tag = tag) &&
    (decide (tag = "") || tagNameOk tag) &&
    (!(voidTags.contains tag) || children.isEmpty) &&
    wfParseForest children

/-- `wfParseNode` over a sibling list. -/
def wfParseForest : List HtmlNode → Bool
  | [] => true
  | n :: ns => wfParseNode n && wfParseForest ns

end

mutual

/-- Element-level well-formedness of sanitizer output (`normWFNode`
without the text-node discipline). -/
def wfSanNode : HtmlNode → Bool
  | .text _ => true
  | .comment _ => false
  | .element tag attrs children =>
    (match lookupTag tag with
     | some names =>
       decide (attrs.filterMap (admitAttr names) = attrs) &&
       decide ((attrs.map Prod.fst).Nodup) &&
       decide (attrs.map Prod.fst = attrs.map (fun a => lowerStr a.1)) &&
       (!(voidTags.contains tag) || children.isEmpty) &&
       wfSanForest children
     | none =>
       objectProtoKeys.contains tag && tagNameOk tag &&
       decide (lowerStr tag = tag) && attrs.isEmpty &&
       wfSanForest children)

/-- `wfSanNode` over a sibling list. -/
def wfSanForest : List HtmlNode → Bool
  | [] => true
  | n :: ns => wfSanNode n && wfSanForest ns

end

/-- Well-formedness of one lexer token: open tags carry pairwise-distinct
lower-case attribute names and a lower-case tag. -/
def tokWF : HtmlTok → Bool
  | .openTok tag attrs _ =>
    decide ((attrs.map Prod.fst).Nodup) &&
    decide (attrs.map Prod.fst = attrs.map (fun a => lowerStr a.1)) &&
    decide (lowerStr tag = tag) &&
    (decide (tag = "") || tagNameOk tag)
  | _ => true

/-! ## Helper lemmas -/

theorem Manager.addToHistory_currentProvider (m : Manager)
    (r c : String) : (m.addToHistory r c).currentProvider =
      m.currentProvider := rfl

theorem Manager.addToHistory_maxHistoryLength (m : Manager)
    (r c : String) : (m.addToHistory r c).maxHistoryLength =
      m.maxHistoryLength := rfl

theorem getAIResponse_snd_currentProvider (m : Manager)
    (out : Except String String) (msg : String) :
    (getAIResponse m out msg).2.currentProvider = m.currentProvider := by
  unfold getAIResponse
  dsimp only
  split <;> (try split) <;> rfl

theorem trimStr_empty : trimStr "" = "" := rfl

/-- The one-step shape of `addToHistoryCore` below capacity. -/
theorem addToHistoryCore_of_lt (N : Nat) (acc : List Turn) (t : Turn)
    (h : acc.length + 1 ≤ N) : addToHistoryCore N acc t = acc ++ [t] := by
  unfold addToHistoryCore
  have hc : ¬ ((acc ++ [t]).length > N) := by
    simp only [List.length_append, List.length_cons, List.length_nil]
    omega
  rw [if_neg hc]

/-- The one-step shape of `addToHistoryCore` at capacity (for positive
capacity). -/
theorem addToHistoryCore_of_full (N : Nat) (acc : List Turn) (t : Turn)
    (hN : 1 ≤ N) (h : acc.length = N) :
    addToHistoryCore N acc t = (acc ++ [t]).drop 1 := by
  unfold addToHistoryCore jsSliceFromEnd
  have hgt : (acc ++ [t]).length > N := by
    simp only [List.length_append, List.length_cons, List.length_nil]
    omega
  rw [if_pos hgt, if_neg (by omega : ¬ (N = 0))]
  have hamt : (acc ++ [t]).length - N = 1 := by
    simp only [List.length_append, List.length_cons, List.length_nil]
    omega
  rw [hamt]

theorem foldl_addToHistoryCore (N : Nat) (hN : 1 ≤ N) :
    ∀ (ts acc : List Turn), acc.length ≤ N →
      List.foldl (addToHistoryCore N) acc ts =
        (acc ++ ts).drop (acc.length + ts.length - N) := by
  intro ts
  induction ts with
  | nil =>
    intro acc hacc
    simp only [List.foldl_nil, List.append_nil, List.length_nil,
      Nat.add_zero]
    rw [Nat.sub_eq_zero_of_le hacc, List.drop_zero]
  | cons t rest ih =>
    intro acc hacc
    simp only [List.foldl_cons]
    by_cases hlen : acc.length + 1 ≤ N
    · rw [addToHistoryCore_of_lt N acc t hlen,
        ih (acc ++ [t]) (by simpa using hlen)]
      have hls : (acc ++ [t]) ++ rest = acc ++ t :: rest := by simp
      rw [hls]
      congr 1
      simp only [List.length_append, List.length_cons, List.length_nil]
      omega
    · have hacc' : acc.length = N := by omega
      rw [addToHistoryCore_of_full N acc t hN hacc']
      have hlen' : ((acc ++ [t]).drop 1).length ≤ N := by
        rw [List.length_drop, List.length_append]
        simp only [List.length_cons, List.length_nil]
        omega
      rw [ih _ hlen']
      have hlist : ((acc ++ [t]).drop 1) ++ rest =
          ((acc ++ [t]) ++ rest).drop 1 := by
        conv_rhs => rw [List.drop_append_eq_append_drop]
        have hz : 1 - (acc ++ [t]).length = 0 := by
          simp only [List.length_append, List.length_cons,
            List.length_nil]
          omega
        rw [hz, List.drop_zero]
      rw [hlist, List.drop_drop]
      have hls : (acc ++ [t]) ++ rest = acc ++ t :: rest := by simp
      rw [hls]
      congr 1
      rw [List.length_drop]
      simp only [List.length_append, List.length_cons, List.length_nil]
      omega

theorem foldl_manager_history (ts : List Turn) : ∀ (m : Manager),
    (List.foldl (fun (m : Manager) (t : Turn) => m.addToHistory t.role t.content) m
      ts).conversationHistory =
      List.foldl (addToHistoryCore m.maxHistoryLength)
        m.conversationHistory ts := by
  induction ts with
  | nil => intro m; rfl
  | cons t rest ih =>
    intro m
    rw [List.foldl_cons, List.foldl_cons, ih]
    rfl

/-! ## Claim theorems: conversation history and dispatch -/

/-- C4: for every sequence of `N + k` appends (`k ≥ 0`) to a conversation
history of capacity `N` (the constructor's default being 10), the history
length after the appends equals `N` and the retained turns are exactly
the last `N` appended, in order (oldest evicted first). -/
theorem addToHistory_keeps_last_N (N : Nat) (p : String) (ts : List Turn)
    (hN : 1 ≤ N) (hlen : N ≤ ts.length) :
    (List.foldl (fun (m : Manager) (t : Turn) => m.addToHistory t.role t.content)
        (⟨p, [], N⟩ : Manager) ts).conversationHistory =
      ts.drop (ts.length - N) ∧
    (List.foldl (fun (m : Manager) (t : Turn) => m.addToHistory t.role t.content)
        (⟨p, [], N⟩ : Manager) ts).conversationHistory.length = N := by
  have hh : (List.foldl (fun (m : Manager) (t : Turn) => m.addToHistory t.role t.content)
      (⟨p, [], N⟩ : Manager) ts).conversationHistory = ts.drop (ts.length - N) := by
    rw [foldl_manager_history]
    have := foldl_addToHistoryCore N hN ts [] (by simp)
    simpa using this
  refine ⟨hh, ?_⟩
  rw [hh, List.length_drop]
  omega

theorem addToHistory_keeps_last_N_witness :
    (1 ≤ 2 ∧ 2 ≤ 3) ∧
    (List.foldl (fun (m : Manager) (t : Turn) => m.addToHistory t.role t.content)
        (⟨"openai", [], 2⟩ : Manager)
        [⟨"user", "a"⟩, ⟨"assistant", "b"⟩, ⟨"user", "c"⟩]
      ).conversationHistory =
      [⟨"assistant", "b"⟩, ⟨"user", "c"⟩] :=
  ⟨⟨by decide, by decide⟩,
    (addToHistory_keeps_last_N 2 "openai"
      [⟨"user", "a"⟩, ⟨"assistant", "b"⟩, ⟨"user", "c"⟩]
      (by decide) (by decide)).1⟩

/-- C9 counterexample: with capacity 0, a single append leaves the
history at length 1, not 0 — `slice(-0)` is `slice(0)`, the whole array,
so the claimed capacity bound fails at `N = 0`. -/
theorem addToHistory_capacity_zero_cex :
    (addToHistoryCore 0 [] ⟨"user", "hi"⟩).length = 1 := by decide

/-- C9 amended: a capacity-0 history is degenerate in the opposite way
the claim states: the eviction `slice(-0)` is a no-op, so every appended
turn is retained and after `k` appends the length is `k` (the capacity
bound `length ≤ N` holds only for `N ≥ 1`). -/
theorem addToHistory_capacity_zero_retains_all (ts : List Turn) :
    List.foldl (addToHistoryCore 0) [] ts = ts := by
  have hstep : ∀ (acc : List Turn) (t : Turn),
      addToHistoryCore 0 acc t = acc ++ [t] := by
    intro acc t
    unfold addToHistoryCore jsSliceFromEnd
    have hgt : (acc ++ [t]).length > 0 := by simp
    rw [if_pos hgt, if_pos rfl]
  have hall : ∀ (ts acc : List Turn),
      List.foldl (addToHistoryCore 0) acc ts = acc ++ ts := by
    intro ts
    induction ts with
    | nil => intro acc; simp
    | cons t rest ih =>
      intro acc
      rw [List.foldl_cons, hstep, ih, List.append_assoc,
        List.singleton_append]
  simpa using hall ts []

/-- C5: dispatch is atomic on failure and appends exactly two turns on
success: a failed `getAIResponse` leaves exactly the user turn appended
(no assistant turn) and propagates the error unchanged; from an empty
history, a successful `getAIResponse "Hello"` appends the user turn and
then the assistant turn with the returned string, leaving length 2. -/
theorem getAIResponse_atomicity :
    (∀ (m : Manager) (e msg : String),
        knownProviders.contains m.currentProvider = true →
        getAIResponse m (.error e) msg =
          (.error e, m.addToHistory "user" msg)) ∧
    (∀ r : String,
        getAIResponse Manager.new (.ok r) "Hello" =
          (.ok r, { Manager.new with conversationHistory :=
              [⟨"user", "Hello"⟩, ⟨"assistant", r⟩] }) ∧
        (getAIResponse Manager.new (.ok r)
            "Hello").2.conversationHistory.length = 2) := by
  constructor
  · intro m e msg h
    unfold getAIResponse
    dsimp only
    rw [Manager.addToHistory_currentProvider, h]
    simp
  · intro r
    exact ⟨rfl, rfl⟩

theorem getAIResponse_atomicity_witness :
    knownProviders.contains Manager.new.currentProvider = true ∧
    getAIResponse Manager.new (.error "network down") "Hi" =
      (.error "network down", Manager.new.addToHistory "user" "Hi") :=
  ⟨by decide,
   getAIResponse_atomicity.1 Manager.new "network down" "Hi" (by decide)⟩

/-- C6: when the active provider's apiKey is empty or blank after
trimming, `sendMessage` returns the user-facing configuration message
without calling the network layer (the outcome is `configError`, not a
dispatch result) and without mutating the conversation history (the
manager is returned unchanged); with an apiKey that is non-empty after
trimming it proceeds to call the provider via `getAIResponse`. -/
theorem sendMessage_credential_gate :
    (∀ (m : Manager) (key input : String) (out : Except String String),
        trimStr key = "" → trimStr input ≠ "" →
        sendMessage m key false out input =
          (.configError (configErrorMessage m.currentProvider), m)) ∧
    (∀ (m : Manager) (key input : String) (out : Except String String),
        trimStr key ≠ "" → trimStr input ≠ "" →
        sendMessage m key false out input =
          (match getAIResponse m out (trimStr input) with
           | (.ok r, m') => (.replied r, m')
           | (.error e, m') =>
             (.errored ("Sorry, I encountered an error: " ++ e), m'))) := by
  constructor
  · intro m key input out hk hmsg
    unfold sendMessage
    dsimp only
    rw [if_neg (by simp [hmsg]), if_pos (by simp [hk])]
  · intro m key input out hk hmsg
    have hk0 : ¬ (key = "") := fun h => hk (by rw [h]; rfl)
    unfold sendMessage
    dsimp only
    rw [if_neg (by simp [hmsg]), if_neg (by simp [hk0, hk])]

theorem sendMessage_credential_gate_witness :
    (trimStr "  " = "" ∧
      sendMessage Manager.new "  " false (.ok "reply") "Hi" =
        (.configError (configErrorMessage "openai"), Manager.new)) ∧
    (trimStr "sk-key" ≠ "" ∧
      sendMessage Manager.new "sk-key" false (.ok "reply") "Hi" =
        (.replied "reply",
         { Manager.new with conversationHistory :=
             [⟨"user", "Hi"⟩, ⟨"assistant", "reply"⟩] })) :=
  ⟨⟨by decide,
    sendMessage_credential_gate.1 Manager.new "  " "Hi" (.ok "reply")
      (by decide) (by decide)⟩,
   ⟨by decide,
    sendMessage_credential_gate.2 Manager.new "sk-key" "Hi" (.ok "reply")
      (by decide) (by decide)⟩⟩

/-- C8: every translation request built by `translateText`, for any of
the three providers, carries a max-tokens field equal to
`min(1000, config.maxTokens)` and a temperature field equal to `0.2`,
independent of the descriptor's configured temperature. -/
theorem translateText_numeric (provider : String)
    (config : ProviderConfig) (text sourceLang targetLang : String)
    (h : knownProviders.contains provider = true) :
    ∃ b, translateRequestBody provider config text sourceLang targetLang =
        some b ∧
      b.maxTokensOf = min 1000 config.maxTokens ∧
      b.temperatureOf = (0.2 : ℚ) := by
  have hp : provider = "openai" ∨ provider = "mistral" ∨
      provider = "gemini" := by
    simpa [knownProviders, List.contains_cons, beq_iff_eq,
      or_assoc] using h
  rcases hp with hp | hp | hp <;> subst hp
  · exact ⟨_, rfl, rfl, rfl⟩
  · exact ⟨_, rfl, rfl, rfl⟩
  · exact ⟨_, rfl, rfl, rfl⟩

theorem translateText_numeric_witness :
    knownProviders.contains "gemini" = true ∧
    ∃ b, translateRequestBody "gemini"
        ⟨"key", "endpoint", "gemini-2.0-flash", 1000, (0.7 : ℚ)⟩
        "hola" "auto" "English" = some b ∧
      b.maxTokensOf = min 1000 1000 ∧
      b.temperatureOf = (0.2 : ℚ) :=
  ⟨by decide,
   translateText_numeric "gemini"
     ⟨"key", "endpoint", "gemini-2.0-flash", 1000, (0.7 : ℚ)⟩
     "hola" "auto" "English" (by decide)⟩

/-- C10 (implicit frame effect): `testConnection p` with a known provider
id permanently switches the manager's active provider to `p` via
`setProvider`, whether the probe succeeds or fails (`callResult` is
arbitrary), and never restores the previous provider: the returned
manager has `currentProvider = p`, so every subsequent call uses `p`. -/
theorem testConnection_switches_provider (m : Manager)
    (callResult : Except String String) (p : String)
    (h : knownProviders.contains p = true) :
    ((testConnection m callResult (some p)).2).currentProvider = p := by
  have hp0 : ¬ (p = "") := by
    intro he
    rw [he] at h
    exact absurd h (by decide)
  have hjs : jsOrProvider (some p) m.currentProvider = p := by
    unfold jsOrProvider
    dsimp only
    rw [if_neg hp0]
  have hset : (setProvider m p).2 = { m with currentProvider := p } := by
    unfold setProvider
    rw [if_pos h]
  unfold testConnection
  dsimp only
  rw [hjs, hset]
  rcases hg : getAIResponse { m with currentProvider := p } callResult
      "Hello, this is a test message." with ⟨res, m2⟩
  have hm2 : m2.currentProvider = p := by
    have := getAIResponse_snd_currentProvider
      { m with currentProvider := p } callResult
      "Hello, this is a test message."
    rw [hg] at this
    exact this
  cases res with
  | ok r => exact hm2
  | error e => exact hm2

theorem testConnection_switches_provider_witness :
    knownProviders.contains "mistral" = true ∧
    ((testConnection Manager.new (.error "network down")
        (some "mistral")).2).currentProvider = "mistral" :=
  ⟨by decide,
   testConnection_switches_provider Manager.new (.error "network down")
     "mistral" (by decide)⟩

/-! ## Sanitizer lemmas -/

/-- Structural induction for `HtmlNode` with a membership hypothesis for
the children of an element. -/
theorem HtmlNode.inductionOn (P : HtmlNode → Prop)
    (htext : ∀ s, P (.text s))
    (hcomment : ∀ s, P (.comment s))
    (helem : ∀ tag attrs children, (∀ n ∈ children, P n) →
      P (.element tag attrs children)) :
    ∀ n, P n := by
  have key : ∀ (k : Nat) (n : HtmlNode), sizeOf n ≤ k → P n := by
    intro k
    induction k with
    | zero =>
      intro n h
      exfalso
      cases n <;> simp at h
    | succ k ih =>
      intro n h
      cases n with
      | text s => exact htext s
      | comment s => exact hcomment s
      | element tag attrs children =>
        refine helem tag attrs children (fun n hn => ih n ?_)
        have h1 : sizeOf n < sizeOf children := List.sizeOf_lt_of_mem hn
        have h2 : sizeOf (HtmlNode.element tag attrs children) =
            1 + sizeOf tag + sizeOf attrs + sizeOf children := by simp
        omega
  intro n
  exact key (sizeOf n) n le_rfl

set_option maxHeartbeats 1000000 in
theorem lowerChar_idem (c : Char) : lowerChar (lowerChar c) = lowerChar c := by
  generalize hd : lowerChar c = d
  unfold lowerChar at hd
  split at hd <;> subst hd
  case h_27 => unfold lowerChar; split <;> first | rfl | simp_all
  all_goals rfl

theorem lowerStr_idem (s : String) : lowerStr (lowerStr s) = lowerStr s := by
  unfold lowerStr
  have hcomp : lowerChar ∘ lowerChar = lowerChar := funext lowerChar_idem
  simp only [String.data]
  rw [List.map_map, hcomp]

/-- Every node of a sanitized sibling list is the image of a member of
the input. -/
theorem mem_sanitizeNodes {ns : List HtmlNode} {n : HtmlNode}
    (h : n ∈ sanitizeNodes ns) : ∃ m ∈ ns, sanitizeNode m = some n := by
  induction ns with
  | nil => simp [sanitizeNodes] at h
  | cons x xs ih =>
    rw [show sanitizeNodes (x :: xs) =
        (match sanitizeNode x with
         | some n' => n' :: sanitizeNodes xs
         | none => sanitizeNodes xs) from rfl] at h
    cases hx : sanitizeNode x with
    | some y =>
      rw [hx] at h
      rcases List.mem_cons.mp h with h | h
      · exact ⟨x, List.mem_cons_self x xs, by rw [hx, h]⟩
      · rcases ih h with ⟨m, hm, hsm⟩
        exact ⟨m, List.mem_cons_of_mem x hm, hsm⟩
    | none =>
      rw [hx] at h
      rcases ih h with ⟨m, hm, hsm⟩
      exact ⟨m, List.mem_cons_of_mem x hm, hsm⟩

/-- An admitted attribute is a fixed point of attribute admission. -/
theorem admitAttr_fixed (names : List String) (p q : String × String)
    (h : admitAttr names p = some q) : admitAttr names q = some q := by
  unfold admitAttr at h ⊢
  dsimp only at h ⊢
  by_cases hc : (names.contains (lowerStr p.1) &&
      (match attrValidator (lowerStr p.1) with
       | some f => f p.2
       | none => false)) = true
  · rw [if_pos hc] at h
    injection h with h
    rw [← h]
    dsimp only
    rw [lowerStr_idem]
    rw [if_pos hc]
  · rw [if_neg hc] at h
    exact absurd h (by simp)

/-- A list on which `f` is the identity filter is a fixed point of
`filterMap f`. -/
theorem filterMap_eq_self_of {α : Type} (f : α → Option α) (l : List α)
    (hl : ∀ a ∈ l, f a = some a) : l.filterMap f = l := by
  induction l with
  | nil => rfl
  | cons x xs ih =>
    rw [List.filterMap_cons, hl x (List.mem_cons_self x xs),
      ih (fun a ha => hl a (List.mem_cons_of_mem x ha))]

/-- Sanitizing a sibling list twice is the same as sanitizing it once,
given the per-node fixed-point property for its members. -/
theorem sanitizeNodes_fixed_of (c : List HtmlNode)
    (hc : ∀ n ∈ c, ∀ n', sanitizeNode n = some n' →
      sanitizeNode n' = some n') :
    sanitizeNodes (sanitizeNodes c) = sanitizeNodes c := by
  induction c with
  | nil => rfl
  | cons x xs ih =>
    have hxs := fun n hn => hc n (List.mem_cons_of_mem x hn)
    rw [show sanitizeNodes (x :: xs) =
        (match sanitizeNode x with
         | some n' => n' :: sanitizeNodes xs
         | none => sanitizeNodes xs) from rfl]
    cases hx : sanitizeNode x with
    | some y =>
      have hy : sanitizeNode y = some y :=
        hc x (List.mem_cons_self x xs) y hx
      rw [show sanitizeNodes (y :: sanitizeNodes xs) =
          (match sanitizeNode y with
           | some n' => n' :: sanitizeNodes (sanitizeNodes xs)
           | none => sanitizeNodes (sanitizeNodes xs)) from rfl, hy,
        ih hxs]
    | none => exact ih hxs

/-- The output of `sanitizeNode` is a fixed point of `sanitizeNode`. -/
theorem sanitizeNode_fixed : ∀ (n n' : HtmlNode),
    sanitizeNode n = some n' → sanitizeNode n' = some n' := by
  intro n
  induction n using HtmlNode.inductionOn with
  | htext s =>
    intro n' h
    rw [show sanitizeNode (.text s) = some (.text s) from rfl] at h
    injection h with h
    rw [← h]
    rfl
  | hcomment s =>
    intro n' h
    exact absurd h (by
      rw [show sanitizeNode (.comment s) = none from rfl]
      simp)
  | helem tag attrs children ih =>
    intro n' h
    rw [show sanitizeNode (.element tag attrs children) =
        (match lookupTag (lowerStr tag) with
         | none =>
           if objectProtoKeys.contains (lowerStr tag) then
             some (.element (lowerStr tag) [] (sanitizeNodes children))
           else some (.text (textContentList children))
         | some names =>
           some (.element (lowerStr tag)
             (attrs.filterMap (admitAttr names))
             (sanitizeNodes children))) from rfl] at h
    cases hl : lookupTag (lowerStr tag) with
    | none =>
      rw [hl] at h
      by_cases hpk : objectProtoKeys.contains (lowerStr tag) = true
      · rw [if_pos hpk] at h
        injection h with h
        rw [← h]
        rw [show sanitizeNode (.element (lowerStr tag) []
            (sanitizeNodes children)) =
            (match lookupTag (lowerStr (lowerStr tag)) with
             | none =>
               if objectProtoKeys.contains (lowerStr (lowerStr tag)) then
                 some (.element (lowerStr (lowerStr tag)) []
                   (sanitizeNodes (sanitizeNodes children)))
               else
                 some (.text (textContentList (sanitizeNodes children)))
             | some names' =>
               some (.element (lowerStr (lowerStr tag))
                 (([] : List (String × String)).filterMap
                   (admitAttr names'))
                 (sanitizeNodes (sanitizeNodes children)))) from rfl]
        rw [lowerStr_idem, hl]
        dsimp only
        rw [if_pos hpk, sanitizeNodes_fixed_of children ih]
      · rw [if_neg hpk] at h
        injection h with h
        rw [← h]
        rfl
    | some names =>
      rw [hl] at h
      injection h with h
      rw [← h]
      rw [show sanitizeNode (.element (lowerStr tag)
          (attrs.filterMap (admitAttr names)) (sanitizeNodes children)) =
          (match lookupTag (lowerStr (lowerStr tag)) with
           | none =>
             if objectProtoKeys.contains (lowerStr (lowerStr tag)) then
               some (.element (lowerStr (lowerStr tag)) []
                 (sanitizeNodes (sanitizeNodes children)))
             else
               some (.text (textContentList (sanitizeNodes children)))
           | some names' =>
             some (.element (lowerStr (lowerStr tag))
               ((attrs.filterMap (admitAttr names)).filterMap
                 (admitAttr names'))
               (sanitizeNodes (sanitizeNodes children)))) from rfl]
      rw [lowerStr_idem, hl]
      dsimp only
      have hattrs : (attrs.filterMap (admitAttr names)).filterMap
          (admitAttr names) = attrs.filterMap (admitAttr names) := by
        refine filterMap_eq_self_of _ _ (fun a ha => ?_)
        rcases List.mem_filterMap.mp ha with ⟨b, _, hb⟩
        exact admitAttr_fixed names b a hb
      rw [hattrs, sanitizeNodes_fixed_of children ih]

/-- The source's validator-table lookup agrees with the spec's wording of
the validators for every attribute name. -/
theorem validator_eq_spec (n v : String) :
    (match attrValidator n with
     | some f => f v
     | none => false) = specAttrValueOk n v := by
  unfold attrValidator specAttrValueOk
  split <;> rename_i heq
  case h_1 =>
    split at heq <;> simp_all
    all_goals rw [← heq]
  case h_2 =>
    split at heq <;> simp_all

/-- Attribute admission holds iff the lower-cased name is in the tag's
allowed set and the spec-worded value validator accepts the value. -/
theorem admitAttr_iff (names : List String) (name value : String) :
    (∃ q, admitAttr names (name, value) = some q) ↔
      (names.contains (lowerStr name) = true ∧
        specAttrValueOk (lowerStr name) value = true) := by
  have hv : (match attrValidator (lowerStr name) with
      | some f => f value
      | none => false) = specAttrValueOk (lowerStr name) value :=
    validator_eq_spec (lowerStr name) value
  unfold admitAttr
  dsimp only
  rw [hv]
  constructor
  · rintro ⟨q, hq⟩
    by_cases hc : (names.contains (lowerStr name) &&
        specAttrValueOk (lowerStr name) value) = true
    · rw [Bool.and_eq_true] at hc
      exact hc
    · rw [if_neg hc] at hq
      cases hq
  · rintro ⟨h1, h2⟩
    refine ⟨(lowerStr name, value), ?_⟩
    rw [if_pos (by rw [Bool.and_eq_true]; exact ⟨h1, h2⟩)]

/-- Every node of a successfully sanitized sibling list is the image of
a member of the input. -/
theorem mem_sanitizeNodesE :
    ∀ (ns out : List HtmlNode), sanitizeNodesE ns = .ok out →
      ∀ n ∈ out, ∃ m ∈ ns, sanitizeNodeE m = .ok (some n) := by
  intro ns
  induction ns with
  | nil =>
    intro out h n hn
    rw [show sanitizeNodesE [] = .ok [] from rfl] at h
    injection h with h
    subst h
    cases hn
  | cons x xs ih =>
    intro out h n hn
    rw [show sanitizeNodesE (x :: xs) =
        (match sanitizeNodeE x with
         | .error e => .error e
         | .ok none => sanitizeNodesE xs
         | .ok (some y) =>
           match sanitizeNodesE xs with
           | .error e => .error e
           | .ok ys => .ok (y :: ys)) from rfl] at h
    cases hx : sanitizeNodeE x with
    | error e => rw [hx] at h; cases h
    | ok o =>
      cases o with
      | none =>
        rw [hx] at h
        rcases ih out h n hn with ⟨m, hm, hsm⟩
        exact ⟨m, List.mem_cons_of_mem x hm, hsm⟩
      | some y =>
        rw [hx] at h
        cases hxs : sanitizeNodesE xs with
        | error e => rw [hxs] at h; cases h
        | ok ys =>
          rw [hxs] at h
          injection h with h
          subst h
          rcases List.mem_cons.mp hn with hn2 | hn2
          · subst hn2
            exact ⟨x, List.mem_cons_self x xs, hx⟩
          · rcases ih ys hxs n hn2 with ⟨m, hm, hsm⟩
            exact ⟨m, List.mem_cons_of_mem x hm, hsm⟩

theorem nodesKeptB_of_forall :
    ∀ (l : List HtmlNode), (∀ n ∈ l, nodeKeptB n = true) →
      nodesKeptB l = true := by
  intro l
  induction l with
  | nil => intro _; rfl
  | cons x xs ih =>
    intro h
    rw [show nodesKeptB (x :: xs) =
      (nodeKeptB x && nodesKeptB xs) from rfl, Bool.and_eq_true]
    exact ⟨h x (List.mem_cons_self x xs),
      ih (fun n hn => h n (List.mem_cons_of_mem x hn))⟩

/-- Every node surviving sanitization has an allow-listed or
prototype-inherited tag, recursively. -/
theorem sanitizeNodeE_kept : ∀ (n n' : HtmlNode),
    sanitizeNodeE n = .ok (some n') → nodeKeptB n' = true := by
  intro n
  induction n using HtmlNode.inductionOn with
  | htext s =>
    intro n' h
    rw [show sanitizeNodeE (.text s) = .ok (some (.text s)) from rfl] at h
    injection h with h
    injection h with h
    rw [← h]
    rfl
  | hcomment s =>
    intro n' h
    rw [show sanitizeNodeE (.comment s) = .ok none from rfl] at h
    injection h with h
    cases h
  | helem tag attrs children ih =>
    intro n' h
    rw [show sanitizeNodeE (.element tag attrs children) =
        (match lookupTag (lowerStr tag) with
         | some names =>
           match sanitizeNodesE children with
           | .error e => .error e
           | .ok cs =>
             .ok (some (.element (lowerStr tag)
               (attrs.filterMap (admitAttr names)) cs))
         | none =>
           if objectProtoKeys.contains (lowerStr tag) then
             if attrs.isEmpty then
               match sanitizeNodesE children with
               | .error e => .error e
               | .ok cs => .ok (some (.element (lowerStr tag) [] cs))
             else
               .error
                 "TypeError: allowedTags[tagName].includes is not a function"
           else .ok (some (.text (textContentList children))))
        from rfl] at h
    have hkept : ∀ (cs : List HtmlNode),
        sanitizeNodesE children = .ok cs → nodesKeptB cs = true :=
      fun cs hcs =>
        nodesKeptB_of_forall cs (fun m hm => by
          rcases mem_sanitizeNodesE children cs hcs m hm with ⟨k, hk, hsk⟩
          exact ih k hk m hsk)
    cases hl : lookupTag (lowerStr tag) with
    | some names =>
      rw [hl] at h
      cases hcs : sanitizeNodesE children with
      | error e => rw [hcs] at h; cases h
      | ok cs =>
        rw [hcs] at h
        injection h with h
        injection h with h
        rw [← h]
        rw [show nodeKeptB (.element (lowerStr tag)
            (attrs.filterMap (admitAttr names)) cs) =
            (((lookupTag (lowerStr tag)).isSome ||
              objectProtoKeys.contains (lowerStr tag)) &&
              nodesKeptB cs) from rfl, hl, hkept cs hcs]
        rfl
    | none =>
      rw [hl] at h
      by_cases hpk : objectProtoKeys.contains (lowerStr tag) = true
      · rw [if_pos hpk] at h
        by_cases hae : attrs.isEmpty = true
        · rw [if_pos hae] at h
          cases hcs : sanitizeNodesE children with
          | error e => rw [hcs] at h; cases h
          | ok cs =>
            rw [hcs] at h
            injection h with h
            injection h with h
            rw [← h]
            rw [show nodeKeptB (.element (lowerStr tag) [] cs) =
                (((lookupTag (lowerStr tag)).isSome ||
                  objectProtoKeys.contains (lowerStr tag)) &&
                  nodesKeptB cs) from rfl, hl, hpk, hkept cs hcs]
            rfl
        · rw [if_neg hae] at h
          cases h
      · rw [if_neg hpk] at h
        injection h with h
        injection h with h
        rw [← h]
        rfl

/-! ## Claim theorems: the sanitizer -/

/-- C1 counterexample: `constructor` is not a key of `allowedTags`, yet
the prototype-chain lookup makes `allowedTags[tagName]` truthy for it, so
`sanitizeHTML` keeps the `<constructor>` wrapper instead of flattening it
to its text content. -/
theorem sanitizeHTML_flattens_disallowed_cex :
    lookupTag "constructor" = none ∧
    sanitizeHTMLE "<constructor>x</constructor>" =
      .ok "<constructor>x</constructor>" := ⟨rfl, rfl⟩

/-- C1 amended: an element whose lower-cased tag makes
`allowedTags[tagName]` genuinely `undefined` — neither an own key of the
table nor an `Object.prototype` key — is flattened to its text content in
place; every node surviving sanitization has an own-key or prototype-key
tag, recursively, and `script` is neither, so no `<script>` element
survives; and the spec's scenario computes exactly, with no throw. -/
theorem sanitizeHTML_flattens_disallowed_amended :
    (∀ (tag : String) (attrs : List (String × String))
        (children : List HtmlNode),
        lookupTag (lowerStr tag) = none →
        objectProtoKeys.contains (lowerStr tag) = false →
        sanitizeNodeE (.element tag attrs children) =
          .ok (some (.text (textContentList children)))) ∧
    (∀ (ns out : List HtmlNode) (n : HtmlNode),
        sanitizeNodesE ns = .ok out → n ∈ out → nodeKeptB n = true) ∧
    ((lookupTag "script").isSome = false ∧
      objectProtoKeys.contains "script" = false) ∧
    sanitizeHTMLE "<p>Hi <b>there</b></p><script>bad()</script>" =
      .ok "<p>Hi <b>there</b></p>bad()" := by
  refine ⟨?_, ?_, ⟨rfl, rfl⟩, rfl⟩
  · intro tag attrs children hl hpk
    rw [show sanitizeNodeE (.element tag attrs children) =
        (match lookupTag (lowerStr tag) with
         | some names =>
           match sanitizeNodesE children with
           | .error e => .error e
           | .ok cs =>
             .ok (some (.element (lowerStr tag)
               (attrs.filterMap (admitAttr names)) cs))
         | none =>
           if objectProtoKeys.contains (lowerStr tag) then
             if attrs.isEmpty then
               match sanitizeNodesE children with
               | .error e => .error e
               | .ok cs => .ok (some (.element (lowerStr tag) [] cs))
             else
               .error
                 "TypeError: allowedTags[tagName].includes is not a function"
           else .ok (some (.text (textContentList children))))
        from rfl, hl]
    dsimp only
    rw [if_neg (by rw [hpk]; exact fun hx => Bool.noConfusion hx)]
  · intro ns out n hout hn
    rcases mem_sanitizeNodesE ns out hout n hn with ⟨m, _, hm⟩
    exact sanitizeNodeE_kept m n hm

theorem sanitizeHTML_flattens_disallowed_amended_witness :
    sanitizeNodeE (.element "script" [] [.text "bad()"]) =
      .ok (some (.text "bad()")) ∧
    nodeKeptB (.element "p" [] [.text "Hi"]) = true :=
  ⟨sanitizeHTML_flattens_disallowed_amended.1 "script" [] [.text "bad()"]
      rfl rfl,
   sanitizeHTML_flattens_disallowed_amended.2.1
      [.element "p" [] [.text "Hi"]] [.element "p" [] [.text "Hi"]]
      (.element "p" [] [.text "Hi"]) rfl (List.mem_singleton.mpr rfl)⟩

/-- C2: for an allow-listed element, an attribute is kept iff its name is
in that tag's allowed set and the per-name value validator accepts the
value (`href`: `http://`/`https://`/`#`; `src`: `http://`/`https://`/
`data:`; `alt`, `class`: always); on the spec's scenarios the
`javascript:` href is stripped while `<a>x</a>` is kept, and `src`
survives while `onload` is dropped. -/
theorem sanitizeHTML_attribute_policy :
    (∀ (tag : String) (attrs : List (String × String))
        (children : List HtmlNode) (names : List String),
        lookupTag (lowerStr tag) = some names →
        sanitizeNode (.element tag attrs children) =
          some (.element (lowerStr tag)
            (attrs.filterMap (admitAttr names)) (sanitizeNodes children))) ∧
    (∀ (names : List String) (name value : String),
        (∃ q, admitAttr names (name, value) = some q) ↔
          (names.contains (lowerStr name) = true ∧
            specAttrValueOk (lowerStr name) value = true)) ∧
    sanitizeHTML "<a href=\"javascript:alert(1)\">x</a>" = "<a>x</a>" ∧
    sanitizeHTML "<img src=\"https://x/y.png\" onload=\"evil()\">" =
      "<img src=\"https://x/y.png\">" := by
  refine ⟨?_, admitAttr_iff, rfl, rfl⟩
  intro tag attrs children names h
  rw [show sanitizeNode (.element tag attrs children) =
      (match lookupTag (lowerStr tag) with
       | none =>
         if objectProtoKeys.contains (lowerStr tag) then
           some (.element (lowerStr tag) [] (sanitizeNodes children))
         else some (.text (textContentList children))
       | some names =>
         some (.element (lowerStr tag)
           (attrs.filterMap (admitAttr names))
           (sanitizeNodes children))) from rfl, h]

theorem sanitizeHTML_attribute_policy_witness :
    sanitizeNode
        (.element "a" [("href", "javascript:alert(1)")] [.text "x"]) =
      some (.element "a" [] [.text "x"]) ∧
    (∃ q, admitAttr ["src", "alt"] ("src", "https://x/y.png") = some q) := by
  constructor
  · exact sanitizeHTML_attribute_policy.1 "a"
      [("href", "javascript:alert(1)")] [.text "x"] ["href"] rfl
  · exact (sanitizeHTML_attribute_policy.2.1 ["src", "alt"] "src"
      "https://x/y.png").mpr ⟨by decide, by decide⟩

/-- Tree-level idempotence: re-sanitizing a sanitized node sequence is a
no-op (the node-level core of claim C3, settled at string level below by
`sanitizeHTML_idempotent_cex` and `sanitizeHTML_idempotent_amended`). -/
theorem sanitize_idempotent (ns : List HtmlNode) :
    sanitizeNodes (sanitizeNodes ns) = sanitizeNodes ns :=
  sanitizeNodes_fixed_of ns (fun n _ => sanitizeNode_fixed n)

/-! ## Parse/serialize roundtrip: lexer lemmas -/

theorem escTextChar_other (c : Char) (h1 : c ≠ '&') (h2 : c ≠ '<')
    (h3 : c ≠ '>') : escTextChar c = [c] := by
  unfold escTextChar
  split <;> simp_all

theorem escAttrChar_other (c : Char) (h1 : c ≠ '&') (h2 : c ≠ '"') :
    escAttrChar c = [c] := by
  unfold escAttrChar
  split <;> simp_all

theorem escTextL_cons (c : Char) (l : List Char) :
    escTextL (c :: l) = escTextChar c ++ escTextL l := rfl

theorem escAttrL_cons (c : Char) (l : List Char) :
    escAttrL (c :: l) = escAttrChar c ++ escAttrL l := rfl

theorem readText_nil (f : Nat) (acc : List Char) :
    readText f [] acc = (acc.reverse, []) := by
  cases f <;> rfl

theorem readText_lt (f : Nat) (r acc : List Char) :
    readText (f + 1) ('<' :: r) acc = (acc.reverse, '<' :: r) := rfl

theorem readText_other (f : Nat) (c : Char) (r acc : List Char)
    (h1 : c ≠ '<') (h2 : c ≠ '&') :
    readText (f + 1) (c :: r) acc = readText f r (c :: acc) := by
  conv_lhs => unfold readText
  split <;> simp_all

theorem readText_escaped :
    ∀ (l rest : List Char) (f : Nat) (acc : List Char),
      (rest = [] ∨ ∃ r', rest = '<' :: r') →
      (escTextL l ++ rest).length ≤ f →
      readText f (escTextL l ++ rest) acc = (acc.reverse ++ l, rest) := by
  intro l
  induction l with
  | nil =>
    intro rest f acc hrest hf
    rcases hrest with h | ⟨r', h⟩ <;> subst h
    · show readText f [] acc = (acc.reverse ++ [], [])
      rw [readText_nil, List.append_nil]
    · show readText f ('<' :: r') acc = (acc.reverse ++ [], '<' :: r')
      cases f with
      | zero => simp at hf
      | succ f => rw [readText_lt, List.append_nil]
  | cons c cs ih =>
    intro rest f acc hrest hf
    rw [escTextL_cons] at hf ⊢
    simp only [List.append_assoc] at hf ⊢
    simp only [List.length_append] at hf
    by_cases h1 : c = '&'
    · subst h1
      rw [show (escTextChar '&').length = 5 from rfl] at hf
      cases f with
      | zero => omega
      | succ f =>
        show readText (f + 1) ('&' :: 'a' :: 'm' :: 'p' :: ';' ::
          (escTextL cs ++ rest)) acc = (acc.reverse ++ '&' :: cs, rest)
        show readText f (escTextL cs ++ rest) ('&' :: acc) = _
        rw [ih rest f ('&' :: acc) hrest (by simp only [List.length_append]; omega)]
        simp
    · by_cases h2 : c = '<'
      · subst h2
        rw [show (escTextChar '<').length = 4 from rfl] at hf
        cases f with
        | zero => omega
        | succ f =>
          show readText (f + 1) ('&' :: 'l' :: 't' :: ';' ::
            (escTextL cs ++ rest)) acc = (acc.reverse ++ '<' :: cs, rest)
          show readText f (escTextL cs ++ rest) ('<' :: acc) = _
          rw [ih rest f ('<' :: acc) hrest (by simp only [List.length_append]; omega)]
          simp
      · by_cases h3 : c = '>'
        · subst h3
          rw [show (escTextChar '>').length = 4 from rfl] at hf
          cases f with
          | zero => omega
          | succ f =>
            show readText (f + 1) ('&' :: 'g' :: 't' :: ';' ::
              (escTextL cs ++ rest)) acc = (acc.reverse ++ '>' :: cs, rest)
            show readText f (escTextL cs ++ rest) ('>' :: acc) = _
            rw [ih rest f ('>' :: acc) hrest (by simp only [List.length_append]; omega)]
            simp
        · rw [escTextChar_other c h1 h2 h3] at hf ⊢
          rw [show ([c] : List Char).length = 1 from rfl] at hf
          cases f with
          | zero => omega
          | succ f =>
            rw [show ([c] ++ (escTextL cs ++ rest) : List Char) =
              c :: (escTextL cs ++ rest) from by simp]
            rw [readText_other f c _ acc h2 h1,
              ih rest f (c :: acc) hrest (by simp only [List.length_append]; omega)]
            simp

theorem readName_nil (f : Nat) (acc : List Char) :
    readName f [] acc = (acc.reverse, []) := by
  cases f <;> rfl

theorem readName_step (f : Nat) (c : Char) (r acc : List Char)
    (h : isNameChar c = true) :
    readName (f + 1) (c :: r) acc = readName f r (c :: acc) := by
  conv_lhs => unfold readName
  simp [h]

theorem readName_stop (f : Nat) (c : Char) (r acc : List Char)
    (h : isNameChar c = false) :
    readName f (c :: r) acc = (acc.reverse, c :: r) := by
  cases f with
  | zero => rfl
  | succ f =>
    conv_lhs => unfold readName
    simp [h]

theorem readName_exact :
    ∀ (nm rest : List Char) (f : Nat) (acc : List Char),
      (∀ c ∈ nm, isNameChar c = true) →
      (rest = [] ∨ ∃ c r, rest = c :: r ∧ isNameChar c = false) →
      nm.length ≤ f →
      readName f (nm ++ rest) acc = (acc.reverse ++ nm, rest) := by
  intro nm
  induction nm with
  | nil =>
    intro rest f acc _ hrest _
    rcases hrest with h | ⟨c, r, h, hc⟩ <;> subst h
    · rw [List.nil_append, readName_nil, List.append_nil]
    · rw [List.nil_append, readName_stop f c r acc hc, List.append_nil]
  | cons c cs ih =>
    intro rest f acc hnm hrest hf
    cases f with
    | zero => simp at hf
    | succ f =>
      rw [List.cons_append,
        readName_step f c _ acc (hnm c (List.mem_cons_self c cs)),
        ih rest f (c :: acc)
          (fun d hd => hnm d (List.mem_cons_of_mem c hd)) hrest
          (by simp at hf; omega)]
      simp

theorem dropSpaces_stop (f : Nat) (cs : List Char)
    (h : cs = [] ∨ ∃ c r, cs = c :: r ∧ isSpaceChar c = false) :
    readAttrs.dropSpaces f cs = cs := by
  rcases h with h | ⟨c, r, h, hc⟩ <;> subst h
  · cases f <;> rfl
  · cases f with
    | zero => rfl
    | succ f =>
      conv_lhs => unfold readAttrs.dropSpaces
      simp [hc]

theorem readAttrName_nil (f : Nat) (acc : List Char) :
    readAttrs.readAttrName f [] acc = (acc.reverse, []) := by
  cases f <;> rfl

theorem readAttrName_step (f : Nat) (c : Char) (r acc : List Char)
    (hs : isSpaceChar c = false) (h1 : c ≠ '=') (h2 : c ≠ '>')
    (h3 : c ≠ '/') :
    readAttrs.readAttrName (f + 1) (c :: r) acc =
      readAttrs.readAttrName f r (c :: acc) := by
  conv_lhs => unfold readAttrs.readAttrName
  simp [hs, h1, h2, h3]

theorem readAttrName_stop (f : Nat) (c : Char) (r acc : List Char)
    (h : isSpaceChar c = true ∨ c = '=' ∨ c = '>' ∨ c = '/') :
    readAttrs.readAttrName f (c :: r) acc = (acc.reverse, c :: r) := by
  cases f with
  | zero => rfl
  | succ f =>
    conv_lhs => unfold readAttrs.readAttrName
    rcases h with h | h | h | h <;> simp [h]

theorem readAttrName_exact :
    ∀ (nm rest : List Char) (f : Nat) (acc : List Char),
      (∀ c ∈ nm, isSpaceChar c = false ∧ c ≠ '=' ∧ c ≠ '>' ∧ c ≠ '/') →
      (rest = [] ∨ ∃ c r, rest = c :: r ∧
        (isSpaceChar c = true ∨ c = '=' ∨ c = '>' ∨ c = '/')) →
      nm.length ≤ f →
      readAttrs.readAttrName f (nm ++ rest) acc = (acc.reverse ++ nm, rest) := by
  intro nm
  induction nm with
  | nil =>
    intro rest f acc _ hrest _
    rcases hrest with h | ⟨c, r, h, hc⟩ <;> subst h
    · rw [List.nil_append, readAttrName_nil, List.append_nil]
    · rw [List.nil_append, readAttrName_stop f c r acc hc, List.append_nil]
  | cons c cs ih =>
    intro rest f acc hnm hrest hf
    cases f with
    | zero => simp at hf
    | succ f =>
      obtain ⟨hs, h1, h2, h3⟩ := hnm c (List.mem_cons_self c cs)
      rw [List.cons_append, readAttrName_step f c _ acc hs h1 h2 h3,
        ih rest f (c :: acc)
          (fun d hd => hnm d (List.mem_cons_of_mem c hd)) hrest
          (by simp at hf; omega)]
      simp

theorem readAttrValue_nil (f : Nat) (q : Option Char) (acc : List Char) :
    readAttrValue f q [] acc = (acc.reverse, []) := by
  cases f <;> rfl

theorem readAttrValue_close (f : Nat) (q : Char) (r acc : List Char)
    (hq : q ≠ '&') :
    readAttrValue (f + 1) (some q) (q :: r) acc = (acc.reverse, r) := by
  conv_lhs => unfold readAttrValue
  split
  · simp_all
  · simp_all
  · rename_i heq
    injection heq with h1 h2
    subst h1
    subst h2
    simp

theorem readAttrValue_other (f : Nat) (q c : Char) (r acc : List Char)
    (h1 : c ≠ '&') (h2 : c ≠ q) :
    readAttrValue (f + 1) (some q) (c :: r) acc =
      readAttrValue f (some q) r (c :: acc) := by
  conv_lhs => unfold readAttrValue
  split
  · simp_all
  · simp_all
  · rename_i heq
    injection heq with hc hr
    subst hc
    subst hr
    simp [h2]

theorem readAttrValue_escaped :
    ∀ (v rest : List Char) (f : Nat) (acc : List Char),
      (escAttrL v).length < f →
      readAttrValue f (some '"') (escAttrL v ++ '"' :: rest) acc =
        (acc.reverse ++ v, rest) := by
  intro v
  induction v with
  | nil =>
    intro rest f acc hf
    cases f with
    | zero => omega
    | succ f =>
      rw [show escAttrL [] ++ '"' :: rest = '"' :: rest from rfl,
        readAttrValue_close f '"' rest acc (by decide), List.append_nil]
  | cons c cs ih =>
    intro rest f acc hf
    rw [escAttrL_cons] at hf ⊢
    simp only [List.append_assoc] at hf ⊢
    simp only [List.length_append] at hf
    by_cases h1 : c = '&'
    · subst h1
      rw [show (escAttrChar '&').length = 5 from rfl] at hf
      cases f with
      | zero => omega
      | succ f =>
        show readAttrValue (f + 1) (some '"') ('&' :: 'a' :: 'm' :: 'p' ::
          ';' :: (escAttrL cs ++ '"' :: rest)) acc =
          (acc.reverse ++ '&' :: cs, rest)
        show readAttrValue f (some '"') (escAttrL cs ++ '"' :: rest)
          ('&' :: acc) = _
        rw [ih rest f ('&' :: acc) (by omega)]
        simp
    · by_cases h2 : c = '"'
      · subst h2
        rw [show (escAttrChar '"').length = 6 from rfl] at hf
        cases f with
        | zero => omega
        | succ f =>
          show readAttrValue (f + 1) (some '"') ('&' :: 'q' :: 'u' :: 'o' ::
            't' :: ';' :: (escAttrL cs ++ '"' :: rest)) acc =
            (acc.reverse ++ '"' :: cs, rest)
          show readAttrValue f (some '"') (escAttrL cs ++ '"' :: rest)
            ('"' :: acc) = _
          rw [ih rest f ('"' :: acc) (by omega)]
          simp
      · rw [escAttrChar_other c h1 h2] at hf ⊢
        rw [show ([c] : List Char).length = 1 from rfl] at hf
        cases f with
        | zero => omega
        | succ f =>
          rw [show ([c] ++ (escAttrL cs ++ '"' :: rest) : List Char) =
            c :: (escAttrL cs ++ '"' :: rest) from by simp,
            readAttrValue_other f '"' c _ acc h1 h2,
            ih rest f (c :: acc) (by omega)]
          simp

theorem readAttrs_gt (f : Nat) (r : List Char)
    (acc : List (String × String)) :
    readAttrs (f + 1) ('>' :: r) acc = (acc.reverse, false, r) := rfl

theorem readAttrs_space (f : Nat) (c : Char) (r : List Char)
    (acc : List (String × String)) (hc : isSpaceChar c = true) :
    readAttrs (f + 1) (c :: r) acc = readAttrs f r acc := by
  have hgt : c ≠ '>' := by
    intro h
    rw [h] at hc
    exact absurd hc (by decide)
  have hsl : c ≠ '/' := by
    intro h
    rw [h] at hc
    exact absurd hc (by decide)
  conv_lhs => unfold readAttrs
  split <;> simp_all

theorem readAttrs_name_step (f : Nat) (c : Char) (r : List Char)
    (acc : List (String × String)) (hs : isSpaceChar c = false)
    (hgt : c ≠ '>') (hsl : c ≠ '/') :
    readAttrs (f + 1) (c :: r) acc =
      (let (nm, r1) := readAttrs.readAttrName f (c :: r) []
       let name := lowerStr ⟨nm⟩
       let r2 := readAttrs.dropSpaces f r1
       match r2 with
       | '=' :: r3 =>
         let r4 := readAttrs.dropSpaces f r3
         let (v, r5) :=
           match r4 with
           | '"' :: r5 => readAttrValue f (some '"') r5 []
           | '\'' :: r5 => readAttrValue f (some '\'') r5 []
           | _ => readAttrValue f none r4 []
         if acc.any (fun a => a.1 = name) then readAttrs f r5 acc
         else readAttrs f r5 ((name, ⟨v⟩) :: acc)
       | _ =>
         if acc.any (fun a => a.1 = name) then readAttrs f r2 acc
         else readAttrs f r2 ((name, "") :: acc)) := by
  conv_lhs => unfold readAttrs
  split
  · simp_all
  · simp_all
  · simp_all
  · simp_all
  · rename_i c' r' heq
    injection heq with hc hr
    subst hc
    subst hr
    rw [if_neg (by simp [hs])]

theorem serializeAttr_data (a : String × String) :
    (serializeAttr a).data =
      ' ' :: (a.1.data ++ '=' :: '"' :: (escAttrL a.2.data ++ ['"'])) := by
  show (((([' '] ++ a.1.data) ++ ['=', '"']) ++ escAttrL a.2.data) ++ ['"'] :
    List Char) = _
  simp

theorem serializeAttrs_cons (a : String × String)
    (l : List (String × String)) :
    serializeAttrs (a :: l) = serializeAttr a ++ serializeAttrs l := rfl

theorem serializeAttrs_nil : serializeAttrs [] = "" := rfl

theorem attrName_facts (n : String)
    (h : n ∈ (["href", "src", "alt", "class"] : List String)) :
    lowerStr n = n ∧ n.data ≠ [] ∧
    (∀ c ∈ n.data, isSpaceChar c = false ∧ c ≠ '=' ∧ c ≠ '>' ∧ c ≠ '/') := by
  fin_cases h <;> exact ⟨by decide, by decide, by decide⟩

theorem any_name_eq_false (acc : List (String × String)) (n : String)
    (h : n ∉ acc.map Prod.fst) :
    acc.any (fun a => a.1 = n) = false := by
  rw [List.any_eq_false]
  intro a ha
  simp only [decide_eq_true_eq]
  intro he
  exact h (List.mem_map.mpr ⟨a, ha, he⟩)

theorem readAttrs_serialized :
    ∀ (attrs : List (String × String)) (rest : List Char) (f : Nat)
      (acc : List (String × String)),
      (∀ a ∈ attrs, a.1 ∈ (["href", "src", "alt", "class"] : List String)) →
      (attrs.map Prod.fst ++ acc.map Prod.fst).Nodup →
      (serializeAttrs attrs).data.length < f →
      readAttrs f ((serializeAttrs attrs).data ++ '>' :: rest) acc =
        (acc.reverse ++ attrs, false, rest) := by
  intro attrs
  induction attrs with
  | nil =>
    intro rest f acc _ _ hf
    cases f with
    | zero => simp at hf
    | succ f =>
      rw [show (serializeAttrs []).data = ([] : List Char) from rfl,
        List.nil_append, readAttrs_gt, List.append_nil]
  | cons a tail ih =>
    intro rest f acc hmem hnd hf
    have hfacts := attrName_facts a.1 (hmem a (List.mem_cons_self a tail))
    obtain ⟨hlow, hne, hchars⟩ := hfacts
    obtain ⟨c, A', hA⟩ := List.exists_cons_of_ne_nil hne
    have hlen : (serializeAttrs (a :: tail)).data.length =
        a.1.data.length + (escAttrL a.2.data).length +
          (serializeAttrs tail).data.length + 4 := by
      rw [serializeAttrs_cons, String.data_append, serializeAttr_data]
      simp only [List.length_append, List.length_cons, List.length_nil]
      omega
    have hinput : (serializeAttrs (a :: tail)).data ++ '>' :: rest =
        ' ' :: (a.1.data ++ '=' :: '"' :: (escAttrL a.2.data ++
          '"' :: ((serializeAttrs tail).data ++ '>' :: rest))) := by
      rw [serializeAttrs_cons, String.data_append, serializeAttr_data]
      simp
    rw [hinput]
    cases f with
    | zero => omega
    | succ f1 =>
      rw [readAttrs_space f1 ' ' _ acc (by decide)]
      cases f1 with
      | zero => omega
      | succ f2 =>
      have hcmem : c ∈ a.1.data := by rw [hA]; exact List.mem_cons_self c A'
      obtain ⟨hcs, hc1, hc2, hc3⟩ := hchars c hcmem
      have hstep : a.1.data ++ '=' :: '"' :: (escAttrL a.2.data ++
          '"' :: ((serializeAttrs tail).data ++ '>' :: rest)) =
          c :: (A' ++ '=' :: '"' :: (escAttrL a.2.data ++
            '"' :: ((serializeAttrs tail).data ++ '>' :: rest))) := by
        rw [hA, List.cons_append]
      rw [hstep, readAttrs_name_step f2 c _ acc hcs hc2 hc3]
      rw [show c :: (A' ++ '=' :: '"' :: (escAttrL a.2.data ++
          '"' :: ((serializeAttrs tail).data ++ '>' :: rest))) =
          a.1.data ++ '=' :: '"' :: (escAttrL a.2.data ++
            '"' :: ((serializeAttrs tail).data ++ '>' :: rest)) from
        by rw [hA, List.cons_append]]
      rw [readAttrName_exact a.1.data _ f2 [] hchars
        (Or.inr ⟨'=', _, rfl, Or.inr (Or.inl rfl)⟩) (by omega)]
      dsimp only
      simp only [List.reverse_nil, List.nil_append]
      have heq1 : lowerStr (⟨a.1.data⟩ : String) = a.1 := hlow
      simp only [heq1]
      have hnd' := hnd
      rw [List.map_cons, List.cons_append, List.nodup_cons] at hnd'
      have hnotin : a.1 ∉ acc.map Prod.fst := fun hmem2 =>
        hnd'.1 (List.mem_append_right _ hmem2)
      rw [any_name_eq_false acc a.1 hnotin]
      simp only [if_neg (by decide : ¬ (false = true))]
      rw [dropSpaces_stop f2 ('=' :: '"' :: (escAttrL a.2.data ++
        '"' :: ((serializeAttrs tail).data ++ '>' :: rest)))
        (Or.inr ⟨'=', _, rfl, by decide⟩)]
      split
      case _ r3 heq =>
        injection heq with hhead htail
        subst htail
        rw [dropSpaces_stop f2 ('"' :: (escAttrL a.2.data ++
          '"' :: ((serializeAttrs tail).data ++ '>' :: rest)))
          (Or.inr ⟨'"', _, rfl, by decide⟩)]
        split
        case _ r5 heq2 =>
          injection heq2 with hhead2 htail2
          subst htail2
          rw [readAttrValue_escaped a.2.data _ f2 [] (by omega)]
          simp only [List.reverse_nil, List.nil_append]
          show readAttrs f2 ((serializeAttrs tail).data ++ '>' :: rest)
            (a :: acc) = (acc.reverse ++ a :: tail, false, rest)
          rw [ih rest f2 (a :: acc)
            (fun b hb => hmem b (List.mem_cons_of_mem a hb))
            (by
              rw [List.map_cons]
              exact (List.perm_middle.nodup_iff).mpr
                (List.nodup_cons.mpr hnd')
              )
            (by omega)]
          simp
        case _ heq2 =>
          exact absurd heq2 (by simp)
        case _ hc1' hc2' =>
          exact absurd rfl (hc1' _)
      case _ hcontra =>
        exact absurd rfl (hcontra _)

theorem lookupTag_facts (t : String) (names : List String)
    (h : lookupTag t = some names) :
    lowerStr t = t ∧ t.data ≠ [] ∧
    ((t.data.head?.map Char.isAlpha).getD false = true) ∧
    (∀ c ∈ t.data, isNameChar c = true) ∧
    ((decide (t = "script") || decide (t = "style")) = false) ∧
    (∀ n ∈ names, n ∈ (["href", "src", "alt", "class"] : List String)) := by
  unfold lookupTag at h
  cases hf : allowedTags.find? (fun p => p.1 = t) with
  | none => rw [hf] at h; cases h
  | some pr =>
    rw [hf] at h
    injection h with h
    have hmem := List.mem_of_find?_eq_some hf
    have hp := List.find?_some hf
    have hpt : pr.1 = t := by simpa using hp
    subst hpt
    subst h
    fin_cases hmem <;>
      exact ⟨by decide, by decide, by decide, by decide, by decide,
        by decide⟩

theorem dropUntilGt_gt (f : Nat) (r : List Char) :
    dropUntilGt (f + 1) ('>' :: r) = r := rfl

theorem escTextChar_head (c : Char) :
    ∃ d es, escTextChar c = d :: es ∧ d ≠ '<' := by
  by_cases h1 : c = '&'
  · subst h1; exact ⟨'&', _, rfl, by decide⟩
  · by_cases h2 : c = '<'
    · subst h2; exact ⟨'&', _, rfl, by decide⟩
    · by_cases h3 : c = '>'
      · subst h3; exact ⟨'&', _, rfl, by decide⟩
      · exact ⟨c, [], by rw [escTextChar_other c h1 h2 h3], h2⟩

theorem serializeNodes_cons (n : HtmlNode) (ns : List HtmlNode) :
    serializeNodes (n :: ns) = serializeNode n ++ serializeNodes ns := rfl

theorem serializeNode_element_data (t : String)
    (attrs : List (String × String)) (children : List HtmlNode) :
    (serializeNode (.element t attrs children)).data =
      if voidTags.contains t then
        '<' :: (t.data ++ ((serializeAttrs attrs).data ++ ['>']))
      else
        '<' :: (t.data ++ ((serializeAttrs attrs).data ++
          '>' :: ((serializeNodes children).data ++
            ('<' :: '/' :: (t.data ++ ['>'])))))  := by
  rw [show serializeNode (.element t attrs children) =
    (if voidTags.contains t then
      "<" ++ t ++ serializeAttrs attrs ++ ">"
    else
      "<" ++ t ++ serializeAttrs attrs ++ ">" ++
        serializeNodes children ++ "</" ++ t ++ ">") from rfl]
  by_cases h : voidTags.contains t
  · rw [if_pos h, if_pos h]
    show (((['<'] ++ t.data) ++ (serializeAttrs attrs).data) ++ ['>'] :
      List Char) = _
    simp
  · rw [if_neg h, if_neg h]
    show ((((((['<'] ++ t.data) ++ (serializeAttrs attrs).data) ++ ['>']) ++
      (serializeNodes children).data) ++ ['<', '/']) ++ t.data) ++ ['>'] = _
    simp

theorem tokenize_text (f : Nat) (s : String) (rest : List Char)
    (hs : s.data ≠ [])
    (hrest : rest = [] ∨ ∃ r', rest = '<' :: r')
    (hf : (escTextL s.data ++ rest).length ≤ f) :
    tokenize (f + 1) (escTextL s.data ++ rest) =
      .textTok s :: tokenize f rest := by
  obtain ⟨ch, tlc, hc⟩ := List.exists_cons_of_ne_nil hs
  obtain ⟨d, es, hesc, hd⟩ := escTextChar_head ch
  have hshape : escTextL s.data ++ rest =
      d :: (es ++ (escTextL tlc ++ rest)) := by
    rw [hc, escTextL_cons, hesc]
    simp
  rw [hshape]
  conv_lhs => unfold tokenize
  split
  case h_6 =>
    rw [← hshape, readText_escaped s.data rest f [] hrest hf]
    show HtmlTok.textTok (⟨[].reverse ++ s.data⟩ : String) ::
      tokenize f rest = HtmlTok.textTok s :: tokenize f rest
    simp only [List.reverse_nil, List.nil_append]
  all_goals simp_all

theorem tokenize_close (f : Nat) (t : String) (rest : List Char)
    (hne : t.data ≠ [])
    (hhead : (t.data.head?.map Char.isAlpha).getD false = true)
    (hchars : ∀ c ∈ t.data, isNameChar c = true)
    (hlow : lowerStr t = t)
    (hf : t.data.length < f) :
    tokenize (f + 1) ('<' :: '/' :: (t.data ++ '>' :: rest)) =
      .closeTok t :: tokenize f rest := by
  obtain ⟨ch, tlc, hc⟩ := List.exists_cons_of_ne_nil hne
  have hca : ch.isAlpha = true := by
    rw [hc] at hhead
    simpa using hhead
  have hcb : ch ≠ '!' := by
    intro h
    rw [h] at hca
    exact absurd hca (by decide)
  rw [hc, List.cons_append]
  conv_lhs => unfold tokenize
  split
  case h_3 =>
    rename_i c2 r2 heq
    have hinj := heq
    injection hinj with _ hinj
    injection hinj with _ hinj
    injection hinj with hc2 hr2
    subst hc2
    subst hr2
    rw [if_pos hca]
    rw [show (ch :: (tlc ++ '>' :: rest) : List Char) =
      t.data ++ '>' :: rest from by rw [hc, List.cons_append]]
    rw [readName_exact t.data _ f [] hchars
      (Or.inr ⟨'>', rest, rfl, by decide⟩) (by omega)]
    dsimp only
    simp only [List.reverse_nil, List.nil_append]
    cases f with
    | zero => omega
    | succ f1 =>
      rw [dropUntilGt_gt]
      have heta : lowerStr (⟨t.data⟩ : String) = t := hlow
      rw [heta]
  case h_4 =>
    rename_i cs c2 r2 hx1 hx2 heq
    injection heq with h1 h2
    injection h2 with hc2 hr2
    exact (hx2 ch (tlc ++ '>' :: rest) hc2.symm hr2.symm).elim
  all_goals simp_all

theorem serializeAttrs_head_stop (attrs : List (String × String))
    (rest : List Char) :
    ∃ c r, (serializeAttrs attrs).data ++ '>' :: rest = c :: r ∧
      isNameChar c = false := by
  cases attrs with
  | nil =>
    refine ⟨'>', rest, ?_, by decide⟩
    rw [show (serializeAttrs []).data = ([] : List Char) from rfl,
      List.nil_append]
  | cons a tl =>
    refine ⟨' ', a.1.data ++ '=' :: '"' :: (escAttrL a.2.data ++
      '"' :: ((serializeAttrs tl).data ++ '>' :: rest)), ?_, by decide⟩
    rw [serializeAttrs_cons, String.data_append, serializeAttr_data]
    simp

theorem tokenize_open (f : Nat) (t : String)
    (attrs : List (String × String)) (rest : List Char)
    (hne : t.data ≠ [])
    (hhead : (t.data.head?.map Char.isAlpha).getD false = true)
    (hchars : ∀ c ∈ t.data, isNameChar c = true)
    (hlow : lowerStr t = t)
    (hss : (decide (t = "script") || decide (t = "style")) = false)
    (hmem : ∀ a ∈ attrs, a.1 ∈ (["href", "src", "alt", "class"] : List String))
    (hnd : (attrs.map Prod.fst).Nodup)
    (hf : t.data.length + (serializeAttrs attrs).data.length < f) :
    tokenize (f + 1)
        ('<' :: (t.data ++ ((serializeAttrs attrs).data ++ '>' :: rest))) =
      .openTok t attrs false :: tokenize f rest := by
  obtain ⟨ch, tlc, hc⟩ := List.exists_cons_of_ne_nil hne
  have hca : ch.isAlpha = true := by
    rw [hc] at hhead
    simpa using hhead
  have hcb : ch ≠ '!' := by
    intro h
    rw [h] at hca
    exact absurd hca (by decide)
  have hcd : ch ≠ '/' := by
    intro h
    rw [h] at hca
    exact absurd hca (by decide)
  rw [hc, List.cons_append]
  conv_lhs => unfold tokenize
  split
  case h_4 =>
    rename_i cs c2 r2 hx1 hx2 heq
    injection heq with h1 h2
    injection h2 with hc2 hr2
    subst hc2
    subst hr2
    rw [if_pos hca]
    rw [show (ch :: (tlc ++ ((serializeAttrs attrs).data ++ '>' :: rest))
        : List Char) =
      t.data ++ ((serializeAttrs attrs).data ++ '>' :: rest) from by
        rw [hc, List.cons_append]]
    rw [readName_exact t.data _ f [] hchars
      (Or.inr (serializeAttrs_head_stop attrs rest)) (by omega)]
    dsimp only
    simp only [List.reverse_nil, List.nil_append]
    have heta : lowerStr (⟨t.data⟩ : String) = t := hlow
    simp only [heta]
    rw [readAttrs_serialized attrs rest f [] hmem (by simpa using hnd)
      (by omega)]
    dsimp only
    simp only [List.reverse_nil, List.nil_append]
    rw [Bool.not_false, Bool.and_true, hss]
    rw [if_neg (by decide : ¬ (false = true))]
  all_goals simp_all

theorem normWFForest_text_iff (s : String) (ns : List HtmlNode) :
    normWFForest (.text s :: ns) = true ↔
      s ≠ "" ∧ headNotText ns = true ∧ normWFForest ns = true := by
  show ((!(decide (s = ""))) && headNotText ns && normWFForest ns) = true ↔ _
  simp [and_assoc]

theorem normWFForest_elem (t : String) (a : List (String × String))
    (c ns : List HtmlNode) :
    normWFForest (.element t a c :: ns) =
      (normWFNode (.element t a c) && normWFForest ns) := rfl

theorem normWFForest_comment (s : String) (ns : List HtmlNode) :
    normWFForest (.comment s :: ns) = false := rfl

theorem normWFNode_elem_spec (t : String) (a : List (String × String))
    (c : List HtmlNode) (h : normWFNode (.element t a c) = true) :
    (∃ names, lookupTag t = some names ∧
      a.filterMap (admitAttr names) = a ∧
      (a.map Prod.fst).Nodup ∧
      a.map Prod.fst = a.map (fun x => lowerStr x.1) ∧
      (voidTags.contains t = true → c = []) ∧
      normWFForest c = true) ∨
    (lookupTag t = none ∧ objectProtoKeys.contains t = true ∧
      tagNameOk t = true ∧ lowerStr t = t ∧ a = [] ∧
      normWFForest c = true) := by
  rw [show normWFNode (.element t a c) =
      (match lookupTag t with
       | some names =>
         decide (a.filterMap (admitAttr names) = a) &&
         decide ((a.map Prod.fst).Nodup) &&
         decide (a.map Prod.fst = a.map (fun x => lowerStr x.1)) &&
         (!(voidTags.contains t) || c.isEmpty) &&
         normWFForest c
       | none =>
         objectProtoKeys.contains t && tagNameOk t &&
         decide (lowerStr t = t) && a.isEmpty &&
         normWFForest c) from rfl] at h
  cases hl : lookupTag t with
  | none =>
    right
    rw [hl] at h
    simp only [Bool.and_eq_true, decide_eq_true_eq,
      List.isEmpty_iff] at h
    obtain ⟨⟨⟨⟨h1, h2⟩, h3⟩, h4⟩, h5⟩ := h
    exact ⟨rfl, h1, h2, h3, h4, h5⟩
  | some names =>
    left
    rw [hl] at h
    simp only [Bool.and_eq_true, decide_eq_true_eq, Bool.or_eq_true,
      Bool.not_eq_true', List.isEmpty_iff] at h
    obtain ⟨⟨⟨⟨h1, h2⟩, h3⟩, h4⟩, h5⟩ := h
    refine ⟨names, rfl, h1, h2, h3, ?_, h5⟩
    intro hv
    rcases h4 with h4 | h4
    · rw [hv] at h4; cases h4
    · exact h4

/-- If `filterMap f` fixes a list, `f` is `some` and the identity on each
member. -/
theorem filterMap_self {α : Type} (f : α → Option α) :
    ∀ (l : List α), l.filterMap f = l → ∀ x ∈ l, f x = some x := by
  intro l
  induction l with
  | nil => intro _ x hx; cases hx
  | cons a as ih =>
    intro h x hx
    rw [List.filterMap_cons] at h
    cases hfa : f a with
    | none =>
      rw [hfa] at h
      have hlen := congrArg List.length h
      simp only [List.length_cons] at hlen
      have hle := List.length_filterMap_le f as
      omega
    | some y =>
      rw [hfa] at h
      injection h with h1 h2
      rcases List.mem_cons.mp hx with hx' | hx'
      · subst hx'; rw [hfa, h1]
      · exact ih h2 x hx'

/-- The attribute names of a well-formed element are drawn from the four
validator-table keys. -/
theorem wf_attrs_mem (t : String) (names : List String)
    (a : List (String × String))
    (hl : lookupTag t = some names)
    (hfix : a.filterMap (admitAttr names) = a) :
    ∀ p ∈ a, p.1 ∈ (["href", "src", "alt", "class"] : List String) := by
  intro p hp
  have hsome := filterMap_self (admitAttr names) a hfix p hp
  unfold admitAttr at hsome
  dsimp only at hsome
  by_cases hc : (names.contains (lowerStr p.1) &&
      (match attrValidator (lowerStr p.1) with
       | some f => f p.2
       | none => false)) = true
  · rw [if_pos hc] at hsome
    injection hsome with hsome
    have hfst : lowerStr p.1 = p.1 := congrArg Prod.fst hsome
    have hmem : lowerStr p.1 ∈ names := by
      rw [Bool.and_eq_true] at hc
      simpa using hc.1
    rw [hfst] at hmem
    exact (lookupTag_facts t names hl).2.2.2.2.2 p.1 hmem
  · rw [if_neg hc] at hsome
    cases hsome

/-- What `tagNameOk` gives: nonempty, leading letter, name characters. -/
theorem tagNameOk_facts (t : String) (h : tagNameOk t = true) :
    t.data ≠ [] ∧ ((t.data.head?.map Char.isAlpha).getD false = true) ∧
    (∀ c ∈ t.data, isNameChar c = true) := by
  unfold tagNameOk at h
  rw [Bool.and_eq_true] at h
  obtain ⟨h1, h2⟩ := h
  cases hd : t.data with
  | nil => rw [hd] at h1; cases h1
  | cons c r =>
    rw [hd] at h1 h2
    refine ⟨fun hx => List.noConfusion hx, ?_, ?_⟩
    · simpa using h1
    · rw [List.all_eq_true] at h2
      intro d hdm
      simpa using h2 d hdm

/-- None of the `Object.prototype` keys is `script`, `style`, or a void
element. -/
theorem protoKeys_facts (t : String)
    (h : objectProtoKeys.contains t = true) :
    ((decide (t = "script") || decide (t = "style")) = false) ∧
    voidTags.contains t = false := by
  have hm : t ∈ objectProtoKeys := by simpa using h
  fin_cases hm <;> exact ⟨by decide, by decide⟩

/-- The facts shared by both well-formed element shapes (allow-listed and
prototype-kept): used by the serialization roundtrip. -/
theorem normWFNode_elem_common (t : String) (a : List (String × String))
    (c : List HtmlNode) (h : normWFNode (.element t a c) = true) :
    lowerStr t = t ∧ t.data ≠ [] ∧
    ((t.data.head?.map Char.isAlpha).getD false = true) ∧
    (∀ ch ∈ t.data, isNameChar ch = true) ∧
    ((decide (t = "script") || decide (t = "style")) = false) ∧
    (voidTags.contains t = true → c = []) ∧
    (∀ p ∈ a, p.1 ∈ (["href", "src", "alt", "class"] : List String)) ∧
    (a.map Prod.fst).Nodup ∧
    normWFForest c = true := by
  rcases normWFNode_elem_spec t a c h with
    ⟨names, hl, hfix, hnd, hlownm, hvoid, hwfc⟩ |
    ⟨hl, hpk, hok, hlow, ha, hwfc⟩
  · obtain ⟨hlow, hne, hhead, hchars, hss, hnames⟩ :=
      lookupTag_facts t names hl
    exact ⟨hlow, hne, hhead, hchars, hss, hvoid,
      wf_attrs_mem t names a hl hfix, hnd, hwfc⟩
  · subst ha
    obtain ⟨hne, hhead, hchars⟩ := tagNameOk_facts t hok
    obtain ⟨hss, hvd⟩ := protoKeys_facts t hpk
    refine ⟨hlow, hne, hhead, hchars, hss, ?_, ?_, by simp, hwfc⟩
    · intro hv
      rw [hvd] at hv
      cases hv
    · intro p hp
      cases hp

theorem escapeText_data (s : String) :
    (escapeText s).data = escTextL s.data := rfl

theorem escTextL_length_pos (l : List Char) (h : l ≠ []) :
    1 ≤ (escTextL l).length := by
  obtain ⟨c, r, hc⟩ := List.exists_cons_of_ne_nil h
  obtain ⟨d, es, hesc, _⟩ := escTextChar_head c
  rw [hc, escTextL_cons, hesc]
  simp

/-- The serialization of a forest whose head is not a text node, followed
by tail input that is empty or tag-opening, is empty or tag-opening. -/
theorem serialized_head_lt (ns : List HtmlNode) (rest : List Char)
    (hwf : normWFForest ns = true) (hnt : headNotText ns = true)
    (hrest : rest = [] ∨ ∃ r', rest = '<' :: r') :
    (serializeNodes ns).data ++ rest = [] ∨
      ∃ r', (serializeNodes ns).data ++ rest = '<' :: r' := by
  cases ns with
  | nil =>
    rw [show (serializeNodes []).data = ([] : List Char) from rfl,
      List.nil_append]
    exact hrest
  | cons n tl =>
    cases n with
    | text s => cases hnt
    | comment s =>
      rw [normWFForest_comment] at hwf
      cases hwf
    | element t a c =>
      rw [serializeNodes_cons, String.data_append,
        serializeNode_element_data]
      by_cases hv : voidTags.contains t = true
      · rw [if_pos hv, List.cons_append]
        exact Or.inr ⟨_, rfl⟩
      · rw [if_neg hv, List.cons_append]
        exact Or.inr ⟨_, rfl⟩

/-- Each token of a well-formed forest consumes at least one character of
its serialization. -/
theorem toksLen_le : ∀ (ns : List HtmlNode), normWFForest ns = true →
    (toksOfForest ns).length ≤ (serializeNodes ns).data.length := by
  have key : ∀ (k : Nat) (ns : List HtmlNode), sizeOf ns ≤ k →
      normWFForest ns = true →
      (toksOfForest ns).length ≤ (serializeNodes ns).data.length := by
    intro k
    induction k with
    | zero =>
      intro ns h _
      exfalso
      cases ns <;> simp at h
    | succ k ih =>
      intro ns hsz hwf
      cases ns with
      | nil => simp [toksOfForest, serializeNodes]
      | cons n tl =>
        have hsztl : sizeOf tl ≤ k := by
          have : sizeOf (n :: tl) = 1 + sizeOf n + sizeOf tl := by simp
          have hn : 0 < sizeOf n := by cases n <;> simp
          omega
        cases n with
        | text s =>
          obtain ⟨hs, hnt, hwftl⟩ := (normWFForest_text_iff s tl).mp hwf
          have ihtl := ih tl hsztl hwftl
          have hpos : 1 ≤ (escTextL s.data).length :=
            escTextL_length_pos s.data (fun hd => hs (by
              cases s with
              | mk l => cases hd; rfl))
          rw [show toksOfForest (.text s :: tl) =
            .textTok s :: toksOfForest tl from rfl,
            serializeNodes_cons, String.data_append,
            show serializeNode (.text s) = escapeText s from rfl,
            escapeText_data]
          simp only [List.length_cons, List.length_append]
          omega
        | comment s =>
          rw [normWFForest_comment] at hwf
          cases hwf
        | element t a c =>
          rw [normWFForest_elem, Bool.and_eq_true] at hwf
          obtain ⟨hwfn, hwftl⟩ := hwf
          obtain ⟨hlow, hne, hhead, hchars, hss, hvoid, hmem4, hnd,
            hwfc⟩ := normWFNode_elem_common t a c hwfn
          have ihtl := ih tl hsztl hwftl
          have hszc : sizeOf c ≤ k := by
            have h1 : sizeOf (HtmlNode.element t a c :: tl) =
                1 + sizeOf (HtmlNode.element t a c) + sizeOf tl := by simp
            have h2 : sizeOf (HtmlNode.element t a c) =
                1 + sizeOf t + sizeOf a + sizeOf c := by simp
            omega
          have ihc := ih c hszc hwfc
          rw [show toksOfForest (.element t a c :: tl) =
            toksOfNode (.element t a c) ++ toksOfForest tl from rfl,
            serializeNodes_cons, String.data_append,
            serializeNode_element_data,
            show toksOfNode (.element t a c) =
              (if voidTags.contains t then [.openTok t a false]
               else .openTok t a false ::
                 (toksOfForest c ++ [.closeTok t])) from rfl]
          by_cases hv : voidTags.contains t = true
          · rw [if_pos hv, if_pos hv]
            simp only [List.length_append, List.length_cons,
              List.length_nil]
            omega
          · rw [if_neg hv, if_neg hv]
            simp only [List.length_append, List.length_cons,
              String.data_append]
            simp only [List.length_append, List.length_cons,
              List.length_nil]
            omega
  intro ns
  exact key (sizeOf ns) ns le_rfl

theorem toksOfForest_cons (n : HtmlNode) (ns : List HtmlNode) :
    toksOfForest (n :: ns) = toksOfNode n ++ toksOfForest ns := rfl

theorem toksOfNode_elem (t : String) (a : List (String × String))
    (c : List HtmlNode) :
    toksOfNode (.element t a c) =
      if voidTags.contains t then [.openTok t a false]
      else .openTok t a false :: (toksOfForest c ++ [.closeTok t]) := rfl

/-- The lexer recovers the token sequence of a well-formed forest from its
serialization, token by token, spending one unit of fuel per token. -/
theorem tokenize_serialized :
    ∀ (ns : List HtmlNode) (rest : List Char) (f : Nat),
      normWFForest ns = true →
      (rest = [] ∨ ∃ r', rest = '<' :: r') →
      ((serializeNodes ns).data ++ rest).length < f →
      tokenize f ((serializeNodes ns).data ++ rest) =
        toksOfForest ns ++ tokenize (f - (toksOfForest ns).length) rest := by
  have key : ∀ (k : Nat) (ns : List HtmlNode), sizeOf ns ≤ k →
      ∀ (rest : List Char) (f : Nat),
      normWFForest ns = true →
      (rest = [] ∨ ∃ r', rest = '<' :: r') →
      ((serializeNodes ns).data ++ rest).length < f →
      tokenize f ((serializeNodes ns).data ++ rest) =
        toksOfForest ns ++ tokenize (f - (toksOfForest ns).length) rest := by
    intro k
    induction k with
    | zero =>
      intro ns h
      exfalso
      cases ns <;> simp at h
    | succ k ih =>
      intro ns hsz rest f hwf hrest hf
      cases ns with
      | nil =>
        rw [show (serializeNodes []).data = ([] : List Char) from rfl,
          List.nil_append, show toksOfForest [] = [] from rfl]
        simp
      | cons n tl =>
        have hsztl : sizeOf tl ≤ k := by
          have : sizeOf (n :: tl) = 1 + sizeOf n + sizeOf tl := by simp
          have hn : 0 < sizeOf n := by cases n <;> simp
          omega
        cases n with
        | comment s => rw [normWFForest_comment] at hwf; cases hwf
        | text s =>
          obtain ⟨hs, hnt, hwftl⟩ := (normWFForest_text_iff s tl).mp hwf
          have hsd : s.data ≠ [] := fun hd => hs (by
            cases s with
            | mk l => cases hd; rfl)
          have hinput : (serializeNodes (HtmlNode.text s :: tl)).data ++
              rest = escTextL s.data ++ ((serializeNodes tl).data ++ rest) := by
            rw [serializeNodes_cons, String.data_append,
              show serializeNode (.text s) = escapeText s from rfl,
              escapeText_data, List.append_assoc]
          rw [hinput] at hf ⊢
          cases f with
          | zero => exact absurd hf (by omega)
          | succ f1 =>
            have hpos := escTextL_length_pos s.data hsd
            simp only [List.length_append] at hf
            rw [tokenize_text f1 s ((serializeNodes tl).data ++ rest) hsd
              (serialized_head_lt tl rest hwftl hnt hrest)
              (by simp only [List.length_append]; omega)]
            rw [ih tl hsztl rest f1 hwftl hrest
              (by simp only [List.length_append]; omega)]
            rw [show toksOfForest (HtmlNode.text s :: tl) =
              .textTok s :: toksOfForest tl from rfl]
            rw [show (f1 + 1) -
                (HtmlTok.textTok s :: toksOfForest tl).length =
                f1 - (toksOfForest tl).length from by
              simp only [List.length_cons]; omega]
            rfl
        | element t a c =>
          rw [normWFForest_elem, Bool.and_eq_true] at hwf
          obtain ⟨hwfn, hwftl⟩ := hwf
          obtain ⟨hlow, hne, hhead, hchars, hss, hvoid, hmem4, hnd,
            hwfc⟩ := normWFNode_elem_common t a c hwfn
          have htlen : 1 ≤ t.data.length := by
            cases hdt : t.data with
            | nil => exact absurd hdt hne
            | cons x xs => simp
          have hszc : sizeOf c ≤ k := by
            have h1 : sizeOf (HtmlNode.element t a c :: tl) =
                1 + sizeOf (HtmlNode.element t a c) + sizeOf tl := by simp
            have h2 : sizeOf (HtmlNode.element t a c) =
                1 + sizeOf t + sizeOf a + sizeOf c := by simp
            omega
          by_cases hv : voidTags.contains t = true
          · have hc0 : c = [] := hvoid hv
            subst hc0
            have hinput :
                (serializeNodes (HtmlNode.element t a [] :: tl)).data ++
                rest = '<' :: (t.data ++ ((serializeAttrs a).data ++
                  '>' :: ((serializeNodes tl).data ++ rest))) := by
              rw [serializeNodes_cons, String.data_append,
                serializeNode_element_data, if_pos hv]
              simp [List.append_assoc]
            rw [hinput] at hf ⊢
            cases f with
            | zero => exact absurd hf (by omega)
            | succ f1 =>
              simp only [List.length_cons, List.length_append] at hf
              rw [tokenize_open f1 t a ((serializeNodes tl).data ++ rest)
                hne hhead hchars hlow hss hmem4 hnd (by omega)]
              rw [ih tl hsztl rest f1 hwftl hrest
                (by simp only [List.length_append]; omega)]
              rw [toksOfForest_cons, toksOfNode_elem, if_pos hv]
              rw [show (f1 + 1) -
                  (([HtmlTok.openTok t a false] : List HtmlTok) ++
                    toksOfForest tl).length =
                  f1 - (toksOfForest tl).length from by
                simp only [List.length_append, List.length_cons,
                  List.length_nil]
                omega]
              rfl
          · have hinput :
                (serializeNodes (HtmlNode.element t a c :: tl)).data ++
                rest = '<' :: (t.data ++ ((serializeAttrs a).data ++
                  '>' :: ((serializeNodes c).data ++
                    ('<' :: '/' :: (t.data ++ '>' ::
                      ((serializeNodes tl).data ++ rest)))))) := by
              rw [serializeNodes_cons, String.data_append,
                serializeNode_element_data, if_neg hv]
              simp [List.append_assoc]
            rw [hinput] at hf ⊢
            cases f with
            | zero => exact absurd hf (by omega)
            | succ f1 =>
              simp only [List.length_cons, List.length_append] at hf
              have htoksc := toksLen_le c hwfc
              rw [tokenize_open f1 t a _ hne hhead hchars hlow hss hmem4 hnd
                (by omega)]
              rw [ih c hszc ('<' :: '/' :: (t.data ++ '>' ::
                  ((serializeNodes tl).data ++ rest))) f1 hwfc
                (Or.inr ⟨_, rfl⟩)
                (by
                  simp only [List.length_append, List.length_cons]
                  omega)]
              obtain ⟨g, hg⟩ : ∃ g, f1 - (toksOfForest c).length = g + 1 :=
                ⟨f1 - (toksOfForest c).length - 1, by omega⟩
              rw [hg, tokenize_close g t ((serializeNodes tl).data ++ rest)
                hne hhead hchars hlow (by omega)]
              rw [ih tl hsztl rest g hwftl hrest
                (by simp only [List.length_append]; omega)]
              rw [toksOfForest_cons, toksOfNode_elem, if_neg hv]
              rw [show (f1 + 1) -
                  ((HtmlTok.openTok t a false ::
                    (toksOfForest c ++ [HtmlTok.closeTok t])) ++
                    toksOfForest tl).length =
                  g - (toksOfForest tl).length from by
                simp only [List.length_append, List.length_cons,
                  List.length_nil]
                omega]
              simp [List.append_assoc]
  intro ns rest f hwf hrest hf
  exact key (sizeOf ns) ns le_rfl rest f hwf hrest hf

theorem consNode_text (s : String) (ns : List HtmlNode)
    (hs : s ≠ "") (hn : headNotText ns = true) :
    consNode (.text s) ns = .text s :: ns := by
  unfold consNode
  dsimp only
  rw [if_neg hs]
  cases ns with
  | nil => rfl
  | cons m r =>
    cases m with
    | text s' => exact absurd hn (by exact fun h => Bool.noConfusion h)
    | comment s' => rfl
    | element t a c => rfl

theorem buildNodes_nil (f : Nat) (stop : Option String) :
    buildNodes (f + 1) stop [] = ([], []) := rfl

theorem buildNodes_text (f : Nat) (stop : Option String) (s : String)
    (rest : List HtmlTok) :
    buildNodes (f + 1) stop (.textTok s :: rest) =
      (consNode (.text s) (buildNodes f stop rest).1,
        (buildNodes f stop rest).2) := rfl

theorem buildNodes_close_hit (f : Nat) (t : String)
    (rest : List HtmlTok) :
    buildNodes (f + 1) (some t) (.closeTok t :: rest) = ([], rest) := by
  conv_lhs => unfold buildNodes
  dsimp only
  rw [if_pos rfl]

theorem buildNodes_open (f : Nat) (stop : Option String) (t : String)
    (a : List (String × String)) (sc : Bool) (rest : List HtmlTok) :
    buildNodes (f + 1) stop (.openTok t a sc :: rest) =
      if voidTags.contains t || sc then
        (.element t a [] :: (buildNodes f stop rest).1,
          (buildNodes f stop rest).2)
      else
        (.element t a (buildNodes f (some t) rest).1 ::
          (buildNodes f stop (buildNodes f (some t) rest).2).1,
          (buildNodes f stop (buildNodes f (some t) rest).2).2) := rfl

/-- The tree builder recovers a well-formed forest from its token
sequence: `stop`/`rt` describe the enclosing context (top level with no
input left, or an enclosing element whose close tag heads `rt`). -/
theorem buildNodes_toks :
    ∀ (ns : List HtmlNode) (rt after : List HtmlTok)
      (stop : Option String) (f : Nat),
      normWFForest ns = true →
      ((stop = none ∧ rt = [] ∧ after = []) ∨
        (∃ t rt', stop = some t ∧ rt = .closeTok t :: rt' ∧ after = rt')) →
      (toksOfForest ns ++ rt).length < f →
      buildNodes f stop (toksOfForest ns ++ rt) = (ns, after) := by
  have key : ∀ (k : Nat) (ns : List HtmlNode), sizeOf ns ≤ k →
      ∀ (rt after : List HtmlTok) (stop : Option String) (f : Nat),
      normWFForest ns = true →
      ((stop = none ∧ rt = [] ∧ after = []) ∨
        (∃ t rt', stop = some t ∧ rt = .closeTok t :: rt' ∧ after = rt')) →
      (toksOfForest ns ++ rt).length < f →
      buildNodes f stop (toksOfForest ns ++ rt) = (ns, after) := by
    intro k
    induction k with
    | zero =>
      intro ns h
      exfalso
      cases ns <;> simp at h
    | succ k ih =>
      intro ns hsz rt after stop f hwf hstop hf
      cases ns with
      | nil =>
        rw [show toksOfForest [] = [] from rfl, List.nil_append] at hf ⊢
        rcases hstop with ⟨hs, hrt, haf⟩ | ⟨t, rt', hs, hrt, haf⟩ <;>
          (subst hs; subst hrt; subst haf)
        · cases f with
          | zero => exact absurd hf (by omega)
          | succ f1 => exact buildNodes_nil f1 none
        · cases f with
          | zero => exact absurd hf (by omega)
          | succ f1 => exact buildNodes_close_hit f1 t after
      | cons n tl =>
        have hsztl : sizeOf tl ≤ k := by
          have : sizeOf (n :: tl) = 1 + sizeOf n + sizeOf tl := by simp
          have hn : 0 < sizeOf n := by cases n <;> simp
          omega
        cases n with
        | comment s => rw [normWFForest_comment] at hwf; cases hwf
        | text s =>
          obtain ⟨hs, hnt, hwftl⟩ := (normWFForest_text_iff s tl).mp hwf
          rw [show toksOfForest (HtmlNode.text s :: tl) =
            .textTok s :: toksOfForest tl from rfl,
            List.cons_append] at hf ⊢
          cases f with
          | zero => exact absurd hf (by omega)
          | succ f1 =>
            simp only [List.length_cons, List.length_append] at hf
            rw [buildNodes_text f1 stop s _]
            rw [ih tl hsztl rt after stop f1 hwftl hstop
              (by simp only [List.length_append]; omega)]
            dsimp only
            rw [consNode_text s tl hs hnt]
        | element t a c =>
          rw [normWFForest_elem, Bool.and_eq_true] at hwf
          obtain ⟨hwfn, hwftl⟩ := hwf
          obtain ⟨hlow, hne, hhead, hchars, hss, hvoid, hmem4, hnd,
            hwfc⟩ := normWFNode_elem_common t a c hwfn
          have hszc : sizeOf c ≤ k := by
            have h1 : sizeOf (HtmlNode.element t a c :: tl) =
                1 + sizeOf (HtmlNode.element t a c) + sizeOf tl := by simp
            have h2 : sizeOf (HtmlNode.element t a c) =
                1 + sizeOf t + sizeOf a + sizeOf c := by simp
            omega
          rw [toksOfForest_cons, toksOfNode_elem, List.append_assoc]
            at hf ⊢
          by_cases hv : voidTags.contains t = true
          · have hc0 := hvoid hv
            subst hc0
            rw [if_pos hv, List.singleton_append] at hf ⊢
            cases f with
            | zero => exact absurd hf (by omega)
            | succ f1 =>
              simp only [List.length_cons, List.length_append] at hf
              rw [buildNodes_open f1 stop t a false _]
              rw [if_pos (by rw [hv]; rfl)]
              rw [ih tl hsztl rt after stop f1 hwftl hstop
                (by simp only [List.length_append]; omega)]
          · have hshape : (HtmlTok.openTok t a false ::
                (toksOfForest c ++ [HtmlTok.closeTok t])) ++
                (toksOfForest tl ++ rt) =
                HtmlTok.openTok t a false :: (toksOfForest c ++
                  (HtmlTok.closeTok t :: (toksOfForest tl ++ rt))) := by
              simp
            rw [if_neg hv, hshape] at hf ⊢
            cases f with
            | zero => exact absurd hf (by omega)
            | succ f1 =>
              simp only [List.length_cons, List.length_append] at hf
              rw [buildNodes_open f1 stop t a false _]
              rw [if_neg (by rw [Bool.or_false]; exact hv)]
              rw [ih c hszc
                (HtmlTok.closeTok t :: (toksOfForest tl ++ rt))
                (toksOfForest tl ++ rt) (some t) f1 hwfc
                (Or.inr ⟨t, _, rfl, rfl, rfl⟩)
                (by
                  simp only [List.length_append, List.length_cons]
                  omega)]
              dsimp only
              rw [ih tl hsztl rt after stop f1 hwftl hstop
                (by simp only [List.length_append]; omega)]
  intro ns rt after stop f hwf hstop hf
  exact key (sizeOf ns) ns le_rfl rt after stop f hwf hstop hf

theorem acc_reverse_wf (acc : List (String × String))
    (h1 : (acc.map Prod.fst).Nodup)
    (h2 : acc.map Prod.fst = acc.map (fun a => lowerStr a.1)) :
    ((acc.reverse.map Prod.fst).Nodup ∧
      acc.reverse.map Prod.fst =
        acc.reverse.map (fun a => lowerStr a.1)) := by
  constructor
  · rw [List.map_reverse]
    exact List.nodup_reverse.mpr h1
  · rw [List.map_reverse, List.map_reverse, h2]

theorem not_mem_of_any_false (acc : List (String × String)) (n : String)
    (h : acc.any (fun a => a.1 = n) = false) : n ∉ acc.map Prod.fst := by
  intro hmem
  rcases List.mem_map.mp hmem with ⟨a, ha, hfst⟩
  rw [List.any_eq_false] at h
  exact absurd hfst (by simpa using h a ha)

theorem acc_cons_wf (acc : List (String × String)) (nm v : String)
    (h1 : (acc.map Prod.fst).Nodup)
    (h2 : acc.map Prod.fst = acc.map (fun a => lowerStr a.1))
    (hnm : lowerStr nm = nm) (hmem : nm ∉ acc.map Prod.fst) :
    ((((nm, v) :: acc).map Prod.fst).Nodup ∧
      ((nm, v) :: acc).map Prod.fst =
        ((nm, v) :: acc).map (fun a => lowerStr a.1)) := by
  constructor
  · rw [List.map_cons]
    exact List.nodup_cons.mpr ⟨hmem, h1⟩
  · rw [List.map_cons, List.map_cons]
    rw [show Prod.fst ((nm, v) : String × String) = nm from rfl, hnm, h2]

/-- The attribute list `readAttrs` produces has pairwise-distinct
lower-case names, given the accumulator does. -/
theorem readAttrs_names_wf :
    ∀ (f : Nat) (cs : List Char) (acc : List (String × String))
      (attrs : List (String × String)) (sc : Bool) (r : List Char),
      readAttrs f cs acc = (attrs, sc, r) →
      (acc.map Prod.fst).Nodup →
      acc.map Prod.fst = acc.map (fun a => lowerStr a.1) →
      ((attrs.map Prod.fst).Nodup ∧
        attrs.map Prod.fst = attrs.map (fun a => lowerStr a.1)) := by
  intro f
  induction f with
  | zero =>
    intro cs acc attrs sc r heq h1 h2
    rw [show readAttrs 0 cs acc = (acc.reverse, false, cs) from rfl] at heq
    injection heq with ha hrest
    subst ha
    exact acc_reverse_wf acc h1 h2
  | succ f ih =>
    intro cs acc attrs sc r heq h1 h2
    unfold readAttrs at heq
    dsimp only at heq
    split at heq
    case h_1 =>
      injection heq with ha hrest
      subst ha
      exact acc_reverse_wf acc h1 h2
    case h_2 =>
      injection heq with ha hrest
      subst ha
      exact acc_reverse_wf acc h1 h2
    case h_3 =>
      injection heq with ha hrest
      subst ha
      exact acc_reverse_wf acc h1 h2
    case h_4 =>
      exact ih _ _ _ _ _ heq h1 h2
    case h_5 =>
      split at heq
      · exact ih _ _ _ _ _ heq h1 h2
      · split at heq
        · split at heq
          · exact ih _ _ _ _ _ heq h1 h2
          · rename_i hany
            have hmem := not_mem_of_any_false acc _
              (Bool.of_not_eq_true hany)
            obtain ⟨hc1, hc2⟩ := acc_cons_wf acc _ _ h1 h2
              (lowerStr_idem _) hmem
            exact ih _ _ _ _ _ heq hc1 hc2
        · split at heq
          · exact ih _ _ _ _ _ heq h1 h2
          · rename_i hany
            have hmem := not_mem_of_any_false acc _
              (Bool.of_not_eq_true hany)
            obtain ⟨hc1, hc2⟩ := acc_cons_wf acc _ _ h1 h2
              (lowerStr_idem _) hmem
            exact ih _ _ _ _ _ heq hc1 hc2

set_option maxHeartbeats 1000000 in
/-- Lower-casing preserves letters. -/
theorem lowerChar_isAlpha (c : Char) (h : c.isAlpha = true) :
    (lowerChar c).isAlpha = true := by
  unfold lowerChar
  split
  all_goals first | decide | exact h

set_option maxHeartbeats 1000000 in
/-- Lower-casing preserves name characters. -/
theorem lowerChar_isNameChar (c : Char) (h : isNameChar c = true) :
    isNameChar (lowerChar c) = true := by
  unfold lowerChar
  split
  all_goals first | decide | exact h

/-- `readName` appends only name characters to its accumulator. -/
theorem readName_chars :
    ∀ (f : Nat) (cs acc : List Char),
      ∃ tk, (readName f cs acc).1 = acc.reverse ++ tk ∧
        ∀ c ∈ tk, isNameChar c = true := by
  intro f
  induction f with
  | zero =>
    intro cs acc
    exact ⟨[], by
        rw [show readName 0 cs acc = (acc.reverse, cs) from rfl]
        simp,
      fun c hc => absurd hc (List.not_mem_nil c)⟩
  | succ f ih =>
    intro cs acc
    cases cs with
    | nil =>
      exact ⟨[], by rw [readName_nil]; simp,
        fun c hc => absurd hc (List.not_mem_nil c)⟩
    | cons c r =>
      by_cases hc : isNameChar c = true
      · rw [readName_step f c r acc hc]
        obtain ⟨tk, h1, h2⟩ := ih r (c :: acc)
        refine ⟨c :: tk, by rw [h1]; simp, ?_⟩
        intro d hd
        rcases List.mem_cons.mp hd with hd1 | hd1
        · subst hd1
          exact hc
        · exact h2 d hd1
      · rw [readName_stop (f + 1) c r acc (Bool.of_not_eq_true hc)]
        exact ⟨[], by simp, fun d hd => absurd hd (List.not_mem_nil d)⟩

/-- A lower-cased name-character string with a leading letter is a legal
tag name. -/
theorem tagNameOk_lowerStr_cons (c : Char) (tk : List Char)
    (hca : c.isAlpha = true) (h2 : ∀ d ∈ tk, isNameChar d = true) :
    tagNameOk (lowerStr ⟨c :: tk⟩) = true := by
  have hdata : (lowerStr (⟨c :: tk⟩ : String)).data =
      lowerChar c :: tk.map lowerChar := rfl
  unfold tagNameOk
  rw [hdata, Bool.and_eq_true]
  constructor
  · show (lowerChar c).isAlpha = true
    exact lowerChar_isAlpha c hca
  · rw [List.all_eq_true]
    intro d hd
    rcases List.mem_cons.mp hd with hd1 | hd1
    · subst hd1
      exact lowerChar_isNameChar c (by
        unfold isNameChar
        rw [hca]
        rfl)
    · rcases List.mem_map.mp hd1 with ⟨e, he, hde⟩
      subst hde
      exact lowerChar_isNameChar e (h2 e he)

/-- The tag the lexer builds from `readName` output is empty (fuel
starvation) or a legal tag name. -/
theorem readName_tag_ok (f : Nat) (c : Char) (r : List Char)
    (hca : c.isAlpha = true) :
    (decide (lowerStr ⟨(readName f (c :: r) []).1⟩ = "") ||
      tagNameOk (lowerStr ⟨(readName f (c :: r) []).1⟩)) = true := by
  cases f with
  | zero =>
    rw [show readName 0 (c :: r) [] = ([], c :: r) from rfl]
    rfl
  | succ f =>
    have hcn : isNameChar c = true := by
      unfold isNameChar
      rw [hca]
      rfl
    rw [readName_step f c r [] hcn]
    obtain ⟨tk, h1, h2⟩ := readName_chars f r [c]
    rw [h1, show (([c].reverse ++ tk : List Char)) = c :: tk from by simp]
    rw [tagNameOk_lowerStr_cons c tk hca h2, Bool.or_true]

theorem tokWF_open (tag : String) (attrs : List (String × String))
    (sc : Bool) (hnd : (attrs.map Prod.fst).Nodup)
    (hlow : attrs.map Prod.fst = attrs.map (fun a => lowerStr a.1))
    (htag : lowerStr tag = tag)
    (htn : (decide (tag = "") || tagNameOk tag) = true) :
    tokWF (.openTok tag attrs sc) = true := by
  show (decide ((attrs.map Prod.fst).Nodup) &&
    decide (attrs.map Prod.fst = attrs.map (fun a => lowerStr a.1)) &&
    decide (lowerStr tag = tag) &&
    (decide (tag = "") || tagNameOk tag)) = true
  rw [Bool.and_eq_true, Bool.and_eq_true, Bool.and_eq_true]
  exact ⟨⟨⟨decide_eq_true hnd, decide_eq_true hlow⟩,
    decide_eq_true htag⟩, htn⟩

/-- Every token the lexer produces is well formed. -/
theorem tokenize_wf :
    ∀ (f : Nat) (cs : List Char) (tok : HtmlTok),
      tok ∈ tokenize f cs → tokWF tok = true := by
  intro f
  induction f with
  | zero =>
    intro cs tok h
    rw [show tokenize 0 cs = [] from rfl] at h
    cases h
  | succ f ih =>
    intro cs tok h
    unfold tokenize at h
    split at h
    case h_1 => cases h
    case h_2 =>
      rcases List.mem_cons.mp h with hh | hh
      · subst hh; rfl
      · exact ih _ _ hh
    case h_3 =>
      split at h
      · rcases List.mem_cons.mp h with hh | hh
        · subst hh; rfl
        · exact ih _ _ hh
      · rcases List.mem_cons.mp h with hh | hh
        · subst hh; rfl
        · exact ih _ _ hh
    case h_4 =>
      split at h
      · split at h
        rename_i cs c r hx1 hx2 hca x nm r1 heqn
        dsimp only at h
        obtain ⟨hnd, hlow⟩ := readAttrs_names_wf f r1 []
          (readAttrs f r1 []).1 (readAttrs f r1 []).2.1
          (readAttrs f r1 []).2.2 rfl (by simp) (by simp)
        have htn := readName_tag_ok f c r hca
        rw [heqn] at htn
        split at h
        · rcases List.mem_cons.mp h with hh | hh
          · subst hh
            exact tokWF_open _ _ _ hnd hlow (lowerStr_idem _) htn
          · rcases List.mem_cons.mp hh with hh2 | hh2
            · subst hh2; rfl
            · exact ih _ _ hh2
        · rcases List.mem_cons.mp h with hh | hh
          · subst hh
            exact tokWF_open _ _ _ hnd hlow (lowerStr_idem _) htn
          · exact ih _ _ hh
      · rcases List.mem_cons.mp h with hh | hh
        · subst hh; rfl
        · exact ih _ _ hh
    case h_5 =>
      rcases List.mem_cons.mp h with hh | hh
      · subst hh; rfl
      · cases hh
    case h_6 =>
      rcases List.mem_cons.mp h with hh | hh
      · subst hh; rfl
      · exact ih _ _ hh

theorem buildNodes_comment (f : Nat) (stop : Option String) (s : String)
    (rest : List HtmlTok) :
    buildNodes (f + 1) stop (.commentTok s :: rest) =
      (.comment s :: (buildNodes f stop rest).1,
        (buildNodes f stop rest).2) := rfl

theorem buildNodes_close (f : Nat) (stop : Option String) (t : String)
    (rest : List HtmlTok) :
    buildNodes (f + 1) stop (.closeTok t :: rest) =
      if stop = some t then ([], rest)
      else buildNodes f stop rest := rfl

/-- The unconsumed tokens of `buildNodes` are a suffix of its input. -/
theorem buildNodes_snd_sub :
    ∀ (f : Nat) (stop : Option String) (toks : List HtmlTok),
      ∃ pre, toks = pre ++ (buildNodes f stop toks).2 := by
  intro f
  induction f with
  | zero => intro stop toks; exact ⟨[], rfl⟩
  | succ f ih =>
    intro stop toks
    cases toks with
    | nil => exact ⟨[], rfl⟩
    | cons tk rest =>
      cases tk with
      | textTok s =>
        rw [buildNodes_text]
        obtain ⟨pre, hp⟩ := ih stop rest
        exact ⟨.textTok s :: pre, by rw [List.cons_append, ← hp]⟩
      | commentTok s =>
        rw [buildNodes_comment]
        obtain ⟨pre, hp⟩ := ih stop rest
        exact ⟨.commentTok s :: pre, by rw [List.cons_append, ← hp]⟩
      | closeTok t =>
        rw [buildNodes_close]
        by_cases hs : stop = some t
        · rw [if_pos hs]
          exact ⟨[.closeTok t], rfl⟩
        · rw [if_neg hs]
          obtain ⟨pre, hp⟩ := ih stop rest
          exact ⟨.closeTok t :: pre, by rw [List.cons_append, ← hp]⟩
      | openTok t a sc =>
        rw [buildNodes_open]
        by_cases hv : (voidTags.contains t || sc) = true
        · rw [if_pos hv]
          obtain ⟨pre, hp⟩ := ih stop rest
          exact ⟨.openTok t a sc :: pre, by
            dsimp only
            rw [List.cons_append, ← hp]⟩
        · rw [if_neg hv]
          obtain ⟨pre1, hp1⟩ := ih (some t) rest
          obtain ⟨pre2, hp2⟩ := ih stop ((buildNodes f (some t) rest).2)
          refine ⟨.openTok t a sc :: (pre1 ++ pre2), by
            dsimp only
            rw [List.cons_append, List.append_assoc, ← hp2, ← hp1]⟩

theorem tokWF_open_elim (t : String) (a : List (String × String))
    (sc : Bool) (h : tokWF (.openTok t a sc) = true) :
    (a.map Prod.fst).Nodup ∧
      a.map Prod.fst = a.map (fun x => lowerStr x.1) ∧
      lowerStr t = t ∧
      (decide (t = "") || tagNameOk t) = true := by
  have h2 : (decide ((a.map Prod.fst).Nodup) &&
    decide (a.map Prod.fst = a.map (fun x => lowerStr x.1)) &&
    decide (lowerStr t = t) &&
    (decide (t = "") || tagNameOk t)) = true := h
  simp only [Bool.and_eq_true, decide_eq_true_eq] at h2
  exact ⟨h2.1.1.1, h2.1.1.2, h2.1.2, h2.2⟩

theorem wfParseForest_cons (n : HtmlNode) (ns : List HtmlNode) :
    wfParseForest (n :: ns) = (wfParseNode n && wfParseForest ns) := rfl

theorem wfParseNode_elem (t : String) (a : List (String × String))
    (c : List HtmlNode) :
    wfParseNode (.element t a c) =
      (decide ((a.map Prod.fst).Nodup) &&
       decide (a.map Prod.fst = a.map (fun x => lowerStr x.1)) &&
       decide (lowerStr t = t) &&
       (decide (t = "") || tagNameOk t) &&
       (!(voidTags.contains t) || c.isEmpty) &&
       wfParseForest c) := rfl

theorem wfParseForest_consNode_text (s : String) (ns : List HtmlNode) :
    wfParseForest (consNode (.text s) ns) = wfParseForest ns := by
  unfold consNode
  dsimp only
  by_cases hs : s = ""
  · rw [if_pos hs]
  · rw [if_neg hs]
    cases ns with
    | nil => rfl
    | cons m r =>
      cases m with
      | text s2 => rfl
      | comment s2 => rfl
      | element t a c => rfl

/-- The tree builder yields a parse-well-formed forest from well-formed
tokens. -/
theorem buildNodes_wfParse :
    ∀ (f : Nat) (stop : Option String) (toks : List HtmlTok),
      (∀ tok ∈ toks, tokWF tok = true) →
      wfParseForest (buildNodes f stop toks).1 = true := by
  intro f
  induction f with
  | zero => intro stop toks _; rfl
  | succ f ih =>
    intro stop toks hwf
    cases toks with
    | nil => rfl
    | cons tk rest =>
      have hwfr : ∀ tok ∈ rest, tokWF tok = true :=
        fun tok ht => hwf tok (List.mem_cons_of_mem _ ht)
      cases tk with
      | textTok s =>
        rw [buildNodes_text]
        dsimp only
        rw [wfParseForest_consNode_text]
        exact ih stop rest hwfr
      | commentTok s =>
        rw [buildNodes_comment]
        dsimp only
        rw [wfParseForest_cons, Bool.and_eq_true]
        exact ⟨rfl, ih stop rest hwfr⟩
      | closeTok t =>
        rw [buildNodes_close]
        by_cases hs : stop = some t
        · rw [if_pos hs]
          rfl
        · rw [if_neg hs]
          exact ih stop rest hwfr
      | openTok t a sc =>
        rw [buildNodes_open]
        obtain ⟨hnd, hlow, htag, htn⟩ :=
          tokWF_open_elim t a sc (hwf _ (List.mem_cons_self _ _))
        by_cases hv : (voidTags.contains t || sc) = true
        · rw [if_pos hv]
          dsimp only
          rw [wfParseForest_cons, Bool.and_eq_true]
          refine ⟨?_, ih stop rest hwfr⟩
          rw [wfParseNode_elem]
          simp only [Bool.and_eq_true, decide_eq_true_eq]
          exact ⟨⟨⟨⟨⟨hnd, hlow⟩, htag⟩, htn⟩, by simp⟩, rfl⟩
        · rw [if_neg hv]
          dsimp only
          rw [wfParseForest_cons, Bool.and_eq_true]
          have hv2 := Bool.of_not_eq_true hv
          rw [Bool.or_eq_false_iff] at hv2
          constructor
          · rw [wfParseNode_elem]
            simp only [Bool.and_eq_true, decide_eq_true_eq]
            exact ⟨⟨⟨⟨⟨hnd, hlow⟩, htag⟩, htn⟩, by rw [hv2.1]; rfl⟩,
              ih (some t) rest hwfr⟩
          · obtain ⟨pre, hp⟩ := buildNodes_snd_sub f (some t) rest
            refine ih stop _ (fun tok ht => hwfr tok ?_)
            rw [hp]
            exact List.mem_append_right pre ht

theorem parseHTML_wfParse (html : String) :
    wfParseForest (parseHTML html) = true := by
  unfold parseHTML
  exact buildNodes_wfParse _ none _
    (fun tok ht => tokenize_wf _ _ tok ht)

theorem admitAttr_some_shape (names : List String) (p q : String × String)
    (h : admitAttr names p = some q) : q = (lowerStr p.1, p.2) := by
  unfold admitAttr at h
  dsimp only at h
  by_cases hc : (names.contains (lowerStr p.1) &&
      (match attrValidator (lowerStr p.1) with
       | some f => f p.2
       | none => false)) = true
  · rw [if_pos hc] at h
    injection h with h
    exact h.symm
  · rw [if_neg hc] at h
    cases h

theorem filterMap_admitAttr_names_sub (names : List String) :
    ∀ (a : List (String × String)),
      a.map Prod.fst = a.map (fun x => lowerStr x.1) →
      ((a.filterMap (admitAttr names)).map Prod.fst).Sublist
        (a.map Prod.fst) := by
  intro a
  induction a with
  | nil => intro _; simp
  | cons p tail ih =>
    intro hlow
    rw [List.map_cons, List.map_cons] at hlow
    injection hlow with hp htail
    rw [List.filterMap_cons]
    cases ha : admitAttr names p with
    | none =>
      rw [List.map_cons]
      exact (ih htail).cons _
    | some q =>
      have hq := admitAttr_some_shape names p q ha
      rw [List.map_cons, List.map_cons, hq]
      rw [show Prod.fst ((lowerStr p.1, p.2) : String × String) =
        lowerStr p.1 from rfl, ← hp]
      exact (ih htail).cons₂ _

theorem filterMap_admitAttr_lower (names : List String)
    (a : List (String × String)) :
    (a.filterMap (admitAttr names)).map Prod.fst =
      (a.filterMap (admitAttr names)).map (fun x => lowerStr x.1) := by
  apply List.map_congr_left
  intro q hq
  rcases List.mem_filterMap.mp hq with ⟨p, _, hp⟩
  have hq2 := admitAttr_some_shape names p q hp
  subst hq2
  rw [show Prod.fst ((lowerStr p.1, p.2) : String × String) =
    lowerStr p.1 from rfl]
  exact (lowerStr_idem p.1).symm

theorem wfParseNode_elem_spec (t : String) (a : List (String × String))
    (c : List HtmlNode) (h : wfParseNode (.element t a c) = true) :
    (a.map Prod.fst).Nodup ∧
      a.map Prod.fst = a.map (fun x => lowerStr x.1) ∧
      lowerStr t = t ∧
      (t = "" ∨ tagNameOk t = true) ∧
      (voidTags.contains t = true → c = []) ∧
      wfParseForest c = true := by
  rw [wfParseNode_elem] at h
  simp only [Bool.and_eq_true, decide_eq_true_eq, Bool.or_eq_true,
    Bool.not_eq_true', List.isEmpty_iff] at h
  obtain ⟨⟨⟨⟨⟨h1, h2⟩, h3⟩, ht⟩, h4⟩, h5⟩ := h
  refine ⟨h1, h2, h3, ht, ?_, h5⟩
  intro hv
  rcases h4 with h4 | h4
  · rw [hv] at h4; cases h4
  · exact h4

theorem wfSanForest_cons (n : HtmlNode) (ns : List HtmlNode) :
    wfSanForest (n :: ns) = (wfSanNode n && wfSanForest ns) := rfl

theorem wfSanNode_elem (t : String) (a : List (String × String))
    (c : List HtmlNode) :
    wfSanNode (.element t a c) =
      (match lookupTag t with
       | some names =>
         decide (a.filterMap (admitAttr names) = a) &&
         decide ((a.map Prod.fst).Nodup) &&
         decide (a.map Prod.fst = a.map (fun x => lowerStr x.1)) &&
         (!(voidTags.contains t) || c.isEmpty) &&
         wfSanForest c
       | none =>
         objectProtoKeys.contains t && tagNameOk t &&
         decide (lowerStr t = t) && a.isEmpty &&
         wfSanForest c) := rfl

/-- Successful sanitization turns a parse-well-formed forest into a
sanitizer-well-formed one. -/
theorem sanitizeNodesE_wfSan :
    ∀ (ns : List HtmlNode), wfParseForest ns = true →
      ∀ out, sanitizeNodesE ns = .ok out → wfSanForest out = true := by
  have key : ∀ (k : Nat) (ns : List HtmlNode), sizeOf ns ≤ k →
      wfParseForest ns = true →
      ∀ out, sanitizeNodesE ns = .ok out → wfSanForest out = true := by
    intro k
    induction k with
    | zero =>
      intro ns h
      exfalso
      cases ns <;> simp at h
    | succ k ih =>
      intro ns hsz hwf out hE
      cases ns with
      | nil =>
        rw [show sanitizeNodesE [] = .ok [] from rfl] at hE
        injection hE with hE
        rw [← hE]
        rfl
      | cons n tl =>
        have hsztl : sizeOf tl ≤ k := by
          have : sizeOf (n :: tl) = 1 + sizeOf n + sizeOf tl := by simp
          have hn : 0 < sizeOf n := by cases n <;> simp
          omega
        rw [wfParseForest_cons, Bool.and_eq_true] at hwf
        obtain ⟨hwfn, hwftl⟩ := hwf
        rw [show sanitizeNodesE (n :: tl) =
            (match sanitizeNodeE n with
             | .error e => .error e
             | .ok none => sanitizeNodesE tl
             | .ok (some y) =>
               match sanitizeNodesE tl with
               | .error e => .error e
               | .ok ys => .ok (y :: ys)) from rfl] at hE
        cases n with
        | text s =>
          rw [show sanitizeNodeE (.text s) = .ok (some (.text s))
            from rfl] at hE
          cases hTl : sanitizeNodesE tl with
          | error e => rw [hTl] at hE; cases hE
          | ok ys =>
            rw [hTl] at hE
            injection hE with hE
            rw [← hE, wfSanForest_cons, Bool.and_eq_true]
            exact ⟨rfl, ih tl hsztl hwftl ys hTl⟩
        | comment s =>
          rw [show sanitizeNodeE (.comment s) = .ok none from rfl] at hE
          exact ih tl hsztl hwftl out hE
        | element t a c =>
          obtain ⟨hnd, hlow, htag, htn, hvoid, hwfc⟩ :=
            wfParseNode_elem_spec t a c hwfn
          have hszc : sizeOf c ≤ k := by
            have h1 : sizeOf (HtmlNode.element t a c :: tl) =
                1 + sizeOf (HtmlNode.element t a c) + sizeOf tl := by simp
            have h2 : sizeOf (HtmlNode.element t a c) =
                1 + sizeOf t + sizeOf a + sizeOf c := by simp
            omega
          rw [show sanitizeNodeE (.element t a c) =
              (match lookupTag (lowerStr t) with
               | some names =>
                 match sanitizeNodesE c with
                 | .error e => .error e
                 | .ok cs =>
                   .ok (some (.element (lowerStr t)
                     (a.filterMap (admitAttr names)) cs))
               | none =>
                 if objectProtoKeys.contains (lowerStr t) then
                   if a.isEmpty then
                     match sanitizeNodesE c with
                     | .error e => .error e
                     | .ok cs => .ok (some (.element (lowerStr t) [] cs))
                   else
                     .error
                       "TypeError: allowedTags[tagName].includes is not a function"
                 else .ok (some (.text (textContentList c))))
            from rfl, htag] at hE
          cases hl : lookupTag t with
          | some names =>
            rw [hl] at hE
            cases hcs : sanitizeNodesE c with
            | error e => rw [hcs] at hE; cases hE
            | ok cs =>
              rw [hcs] at hE
              cases hTl : sanitizeNodesE tl with
              | error e => rw [hTl] at hE; cases hE
              | ok ys =>
                rw [hTl] at hE
                injection hE with hE
                rw [← hE, wfSanForest_cons, Bool.and_eq_true]
                refine ⟨?_, ih tl hsztl hwftl ys hTl⟩
                rw [wfSanNode_elem, htag, hl]
                dsimp only
                simp only [Bool.and_eq_true, decide_eq_true_eq,
                  Bool.or_eq_true, Bool.not_eq_true', List.isEmpty_iff]
                refine ⟨⟨⟨⟨?_, ?_⟩, ?_⟩, ?_⟩, ?_⟩
                · refine filterMap_eq_self_of _ _ (fun q hq => ?_)
                  rcases List.mem_filterMap.mp hq with ⟨p, _, hp⟩
                  exact admitAttr_fixed names p q hp
                · exact List.Nodup.sublist
                    (filterMap_admitAttr_names_sub names a hlow) hnd
                · exact filterMap_admitAttr_lower names a
                · by_cases hv : voidTags.contains t = true
                  · right
                    have hc0 := hvoid hv
                    subst hc0
                    rw [show sanitizeNodesE ([] : List HtmlNode) =
                      .ok [] from rfl] at hcs
                    injection hcs with hcs
                    exact hcs.symm
                  · left
                    exact Bool.of_not_eq_true hv
                · exact ih c hszc hwfc cs hcs
          | none =>
            rw [hl] at hE
            by_cases hpk : objectProtoKeys.contains t = true
            · rw [if_pos hpk] at hE
              by_cases hae : a.isEmpty = true
              · rw [if_pos hae] at hE
                cases hcs : sanitizeNodesE c with
                | error e => rw [hcs] at hE; cases hE
                | ok cs =>
                  rw [hcs] at hE
                  cases hTl : sanitizeNodesE tl with
                  | error e => rw [hTl] at hE; cases hE
                  | ok ys =>
                    rw [hTl] at hE
                    injection hE with hE
                    rw [← hE, wfSanForest_cons, Bool.and_eq_true]
                    refine ⟨?_, ih tl hsztl hwftl ys hTl⟩
                    have htn2 : tagNameOk t = true := by
                      rcases htn with htn | htn
                      · subst htn
                        rw [show objectProtoKeys.contains "" = false
                          from rfl] at hpk
                        cases hpk
                      · exact htn
                    rw [wfSanNode_elem, htag, hl]
                    dsimp only
                    simp only [Bool.and_eq_true, decide_eq_true_eq,
                      List.isEmpty_iff]
                    exact ⟨⟨⟨⟨hpk, htn2⟩, trivial⟩, trivial⟩,
                      ih c hszc hwfc cs hcs⟩
              · rw [if_neg hae] at hE
                cases hE
            · rw [if_neg hpk] at hE
              cases hTl : sanitizeNodesE tl with
              | error e => rw [hTl] at hE; cases hE
              | ok ys =>
                rw [hTl] at hE
                injection hE with hE
                rw [← hE, wfSanForest_cons, Bool.and_eq_true]
                exact ⟨rfl, ih tl hsztl hwftl ys hTl⟩
  intro ns hwf out hE
  exact key (sizeOf ns) ns le_rfl hwf out hE

theorem append_ne_empty_right (s s2 : String) (h : s2 ≠ "") :
    s ++ s2 ≠ "" := by
  intro he
  apply h
  have hd : (s ++ s2).data = ("" : String).data := congrArg String.data he
  rw [String.data_append] at hd
  exact String.ext (List.append_eq_nil.mp hd).2

theorem escTextL_append (l1 l2 : List Char) :
    escTextL (l1 ++ l2) = escTextL l1 ++ escTextL l2 := by
  induction l1 with
  | nil => rfl
  | cons c r ih =>
    rw [List.cons_append, escTextL_cons, ih, escTextL_cons,
      List.append_assoc]

theorem escapeText_append (s s2 : String) :
    escapeText (s ++ s2) = escapeText s ++ escapeText s2 := by
  apply String.ext
  rw [escapeText_data, String.data_append, escTextL_append,
    String.data_append, escapeText_data, escapeText_data]

theorem consNode_comment (s : String) (ms : List HtmlNode) :
    consNode (.comment s) ms = .comment s :: ms := rfl

theorem consNode_elem (t : String) (a : List (String × String))
    (c : List HtmlNode) (ms : List HtmlNode) :
    consNode (.element t a c) ms = .element t a c :: ms := rfl

theorem normWFForest_consNode_text (s : String) (ms : List HtmlNode)
    (h : normWFForest ms = true) :
    normWFForest (consNode (.text s) ms) = true := by
  unfold consNode
  dsimp only
  by_cases hs : s = ""
  · rw [if_pos hs]
    exact h
  · rw [if_neg hs]
    cases ms with
    | nil => exact (normWFForest_text_iff s []).mpr ⟨hs, rfl, rfl⟩
    | cons m r =>
      cases m with
      | text s2 =>
        obtain ⟨hs2, hnt, hwfr⟩ := (normWFForest_text_iff s2 r).mp h
        exact (normWFForest_text_iff (s ++ s2) r).mpr
          ⟨append_ne_empty_right s s2 hs2, hnt, hwfr⟩
      | comment s2 =>
        exact (normWFForest_text_iff s (.comment s2 :: r)).mpr
          ⟨hs, rfl, h⟩
      | element t a c =>
        exact (normWFForest_text_iff s (.element t a c :: r)).mpr
          ⟨hs, rfl, h⟩

theorem serializeNodes_consNode_text (s : String) (ms : List HtmlNode) :
    serializeNodes (consNode (.text s) ms) =
      escapeText s ++ serializeNodes ms := by
  unfold consNode
  dsimp only
  by_cases hs : s = ""
  · rw [if_pos hs, hs]
    rfl
  · rw [if_neg hs]
    cases ms with
    | nil => rfl
    | cons m r =>
      cases m with
      | text s2 =>
        rw [serializeNodes_cons,
          show serializeNode (.text (s ++ s2)) =
            escapeText (s ++ s2) from rfl,
          serializeNodes_cons,
          show serializeNode (.text s2) = escapeText s2 from rfl,
          escapeText_append, String.append_assoc]
      | comment s2 => rfl
      | element t a c => rfl

theorem normalizeNodes_cons (n : HtmlNode) (ns : List HtmlNode) :
    normalizeNodes (n :: ns) =
      consNode (normalizeNode n) (normalizeNodes ns) := rfl

/-- Normalization does not change the serialization. -/
theorem serializeNodes_normalize :
    ∀ (ns : List HtmlNode),
      serializeNodes (normalizeNodes ns) = serializeNodes ns := by
  have key : ∀ (k : Nat) (ns : List HtmlNode), sizeOf ns ≤ k →
      serializeNodes (normalizeNodes ns) = serializeNodes ns := by
    intro k
    induction k with
    | zero =>
      intro ns h
      exfalso
      cases ns <;> simp at h
    | succ k ih =>
      intro ns hsz
      cases ns with
      | nil => rfl
      | cons n tl =>
        have hsztl : sizeOf tl ≤ k := by
          have : sizeOf (n :: tl) = 1 + sizeOf n + sizeOf tl := by simp
          have hn : 0 < sizeOf n := by cases n <;> simp
          omega
        rw [normalizeNodes_cons]
        cases n with
        | text s =>
          rw [show normalizeNode (.text s) = .text s from rfl,
            serializeNodes_consNode_text, ih tl hsztl,
            serializeNodes_cons,
            show serializeNode (.text s) = escapeText s from rfl]
        | comment s =>
          rw [show normalizeNode (.comment s) = .comment s from rfl,
            consNode_comment, serializeNodes_cons, ih tl hsztl,
            serializeNodes_cons]
        | element t a c =>
          have hszc : sizeOf c ≤ k := by
            have h1 : sizeOf (HtmlNode.element t a c :: tl) =
                1 + sizeOf (HtmlNode.element t a c) + sizeOf tl := by simp
            have h2 : sizeOf (HtmlNode.element t a c) =
                1 + sizeOf t + sizeOf a + sizeOf c := by simp
            omega
          rw [show normalizeNode (.element t a c) =
            .element t a (normalizeNodes c) from rfl, consNode_elem,
            serializeNodes_cons, ih tl hsztl, serializeNodes_cons]
          have hser : serializeNode (.element t a (normalizeNodes c)) =
              serializeNode (.element t a c) := by
            rw [show serializeNode (.element t a (normalizeNodes c)) =
              (if voidTags.contains t then
                "<" ++ t ++ serializeAttrs a ++ ">"
              else
                "<" ++ t ++ serializeAttrs a ++ ">" ++
                  serializeNodes (normalizeNodes c) ++ "</" ++ t ++ ">")
              from rfl,
              show serializeNode (.element t a c) =
              (if voidTags.contains t then
                "<" ++ t ++ serializeAttrs a ++ ">"
              else
                "<" ++ t ++ serializeAttrs a ++ ">" ++
                  serializeNodes c ++ "</" ++ t ++ ">") from rfl,
              ih c hszc]
          rw [hser]
  intro ns
  exact key (sizeOf ns) ns le_rfl

theorem wfSanNode_elem_spec (t : String) (a : List (String × String))
    (c : List HtmlNode) (h : wfSanNode (.element t a c) = true) :
    (∃ names, lookupTag t = some names ∧
      a.filterMap (admitAttr names) = a ∧
      (a.map Prod.fst).Nodup ∧
      a.map Prod.fst = a.map (fun x => lowerStr x.1) ∧
      (voidTags.contains t = true → c = []) ∧
      wfSanForest c = true) ∨
    (lookupTag t = none ∧ objectProtoKeys.contains t = true ∧
      tagNameOk t = true ∧ lowerStr t = t ∧ a = [] ∧
      wfSanForest c = true) := by
  rw [wfSanNode_elem] at h
  cases hl : lookupTag t with
  | none =>
    right
    rw [hl] at h
    simp only [Bool.and_eq_true, decide_eq_true_eq,
      List.isEmpty_iff] at h
    obtain ⟨⟨⟨⟨h1, h2⟩, h3⟩, h4⟩, h5⟩ := h
    exact ⟨rfl, h1, h2, h3, h4, h5⟩
  | some names =>
    left
    rw [hl] at h
    simp only [Bool.and_eq_true, decide_eq_true_eq, Bool.or_eq_true,
      Bool.not_eq_true', List.isEmpty_iff] at h
    obtain ⟨⟨⟨⟨h1, h2⟩, h3⟩, h4⟩, h5⟩ := h
    refine ⟨names, rfl, h1, h2, h3, ?_, h5⟩
    intro hv
    rcases h4 with h4 | h4
    · rw [hv] at h4; cases h4
    · exact h4

theorem normWFNode_elem_intro (t : String) (a : List (String × String))
    (c : List HtmlNode) (names : List String)
    (hl : lookupTag t = some names)
    (h1 : a.filterMap (admitAttr names) = a)
    (h2 : (a.map Prod.fst).Nodup)
    (h3 : a.map Prod.fst = a.map (fun x => lowerStr x.1))
    (h4 : voidTags.contains t = true → c = [])
    (h5 : normWFForest c = true) :
    normWFNode (.element t a c) = true := by
  rw [show normWFNode (.element t a c) =
      (match lookupTag t with
       | some names =>
         decide (a.filterMap (admitAttr names) = a) &&
         decide ((a.map Prod.fst).Nodup) &&
         decide (a.map Prod.fst = a.map (fun x => lowerStr x.1)) &&
         (!(voidTags.contains t) || c.isEmpty) &&
         normWFForest c
       | none =>
         objectProtoKeys.contains t && tagNameOk t &&
         decide (lowerStr t = t) && a.isEmpty &&
         normWFForest c) from rfl, hl]
  dsimp only
  simp only [Bool.and_eq_true, decide_eq_true_eq, Bool.or_eq_true,
    Bool.not_eq_true', List.isEmpty_iff]
  refine ⟨⟨⟨⟨h1, h2⟩, h3⟩, ?_⟩, h5⟩
  by_cases hv : voidTags.contains t = true
  · exact Or.inr (h4 hv)
  · exact Or.inl (Bool.of_not_eq_true hv)

/-- Introduction form of `normWFNode` for a prototype-kept element. -/
theorem normWFNode_junk_intro (t : String) (c : List HtmlNode)
    (hl : lookupTag t = none)
    (hpk : objectProtoKeys.contains t = true)
    (hok : tagNameOk t = true)
    (hlow : lowerStr t = t)
    (h5 : normWFForest c = true) :
    normWFNode (.element t [] c) = true := by
  rw [show normWFNode (.element t [] c) =
      (match lookupTag t with
       | some names =>
         decide (([] : List (String × String)).filterMap
           (admitAttr names) = []) &&
         decide ((([] : List (String × String)).map Prod.fst).Nodup) &&
         decide (([] : List (String × String)).map Prod.fst =
           ([] : List (String × String)).map (fun x => lowerStr x.1)) &&
         (!(voidTags.contains t) || c.isEmpty) &&
         normWFForest c
       | none =>
         objectProtoKeys.contains t && tagNameOk t &&
         decide (lowerStr t = t) &&
         ([] : List (String × String)).isEmpty &&
         normWFForest c) from rfl, hl]
  dsimp only
  rw [hpk, hok, h5]
  simp [hlow]

/-- Normalizing a sanitizer-well-formed forest yields a fully normalized
well-formed forest. -/
theorem normWF_normalize :
    ∀ (ns : List HtmlNode), wfSanForest ns = true →
      normWFForest (normalizeNodes ns) = true := by
  have key : ∀ (k : Nat) (ns : List HtmlNode), sizeOf ns ≤ k →
      wfSanForest ns = true →
      normWFForest (normalizeNodes ns) = true := by
    intro k
    induction k with
    | zero =>
      intro ns h
      exfalso
      cases ns <;> simp at h
    | succ k ih =>
      intro ns hsz hwf
      cases ns with
      | nil => rfl
      | cons n tl =>
        have hsztl : sizeOf tl ≤ k := by
          have : sizeOf (n :: tl) = 1 + sizeOf n + sizeOf tl := by simp
          have hn : 0 < sizeOf n := by cases n <;> simp
          omega
        rw [wfSanForest_cons, Bool.and_eq_true] at hwf
        obtain ⟨hwfn, hwftl⟩ := hwf
        rw [normalizeNodes_cons]
        cases n with
        | text s =>
          rw [show normalizeNode (.text s) = .text s from rfl]
          exact normWFForest_consNode_text s _ (ih tl hsztl hwftl)
        | comment s => cases hwfn
        | element t a c =>
          have hszc : sizeOf c ≤ k := by
            have h1 : sizeOf (HtmlNode.element t a c :: tl) =
                1 + sizeOf (HtmlNode.element t a c) + sizeOf tl := by simp
            have h2 : sizeOf (HtmlNode.element t a c) =
                1 + sizeOf t + sizeOf a + sizeOf c := by simp
            omega
          rw [show normalizeNode (.element t a c) =
            .element t a (normalizeNodes c) from rfl, consNode_elem,
            normWFForest_elem, Bool.and_eq_true]
          refine ⟨?_, ih tl hsztl hwftl⟩
          rcases wfSanNode_elem_spec t a c hwfn with
            ⟨names, hl, hfix, hnd, hlow, hvoid, hwfc⟩ |
            ⟨hl, hpk, hok, hlow, ha, hwfc⟩
          · exact normWFNode_elem_intro t a _ names hl hfix hnd hlow
              (fun hv => by rw [hvoid hv]; rfl) (ih c hszc hwfc)
          · subst ha
            exact normWFNode_junk_intro t _ hl hpk hok hlow
              (ih c hszc hwfc)
  intro ns hwf
  exact key (sizeOf ns) ns le_rfl hwf

/-- A fully normalized well-formed forest is a fixed point of
sanitization, which never throws on it. -/
theorem sanitizeNodesE_of_normWF :
    ∀ (ns : List HtmlNode), normWFForest ns = true →
      sanitizeNodesE ns = .ok ns := by
  have key : ∀ (k : Nat) (ns : List HtmlNode), sizeOf ns ≤ k →
      normWFForest ns = true → sanitizeNodesE ns = .ok ns := by
    intro k
    induction k with
    | zero =>
      intro ns h
      exfalso
      cases ns <;> simp at h
    | succ k ih =>
      intro ns hsz hwf
      cases ns with
      | nil => rfl
      | cons n tl =>
        have hsztl : sizeOf tl ≤ k := by
          have : sizeOf (n :: tl) = 1 + sizeOf n + sizeOf tl := by simp
          have hn : 0 < sizeOf n := by cases n <;> simp
          omega
        rw [show sanitizeNodesE (n :: tl) =
            (match sanitizeNodeE n with
             | .error e => .error e
             | .ok none => sanitizeNodesE tl
             | .ok (some y) =>
               match sanitizeNodesE tl with
               | .error e => .error e
               | .ok ys => .ok (y :: ys)) from rfl]
        cases n with
        | text s =>
          obtain ⟨hs, hnt, hwftl⟩ := (normWFForest_text_iff s tl).mp hwf
          rw [show sanitizeNodeE (.text s) = .ok (some (.text s))
            from rfl]
          dsimp only
          rw [ih tl hsztl hwftl]
        | comment s =>
          rw [normWFForest_comment] at hwf
          cases hwf
        | element t a c =>
          rw [normWFForest_elem, Bool.and_eq_true] at hwf
          obtain ⟨hwfn, hwftl⟩ := hwf
          have hszc : sizeOf c ≤ k := by
            have h1 : sizeOf (HtmlNode.element t a c :: tl) =
                1 + sizeOf (HtmlNode.element t a c) + sizeOf tl := by simp
            have h2 : sizeOf (HtmlNode.element t a c) =
                1 + sizeOf t + sizeOf a + sizeOf c := by simp
            omega
          rw [show sanitizeNodeE (.element t a c) =
              (match lookupTag (lowerStr t) with
               | some names =>
                 match sanitizeNodesE c with
                 | .error e => .error e
                 | .ok cs =>
                   .ok (some (.element (lowerStr t)
                     (a.filterMap (admitAttr names)) cs))
               | none =>
                 if objectProtoKeys.contains (lowerStr t) then
                   if a.isEmpty then
                     match sanitizeNodesE c with
                     | .error e => .error e
                     | .ok cs => .ok (some (.element (lowerStr t) [] cs))
                   else
                     .error
                       "TypeError: allowedTags[tagName].includes is not a function"
                 else .ok (some (.text (textContentList c))))
            from rfl]
          rcases normWFNode_elem_spec t a c hwfn with
            ⟨names, hl, hfix, hnd, hlownm, hvoid, hwfc⟩ |
            ⟨hl, hpk, hok, hlow2, ha, hwfc⟩
          · obtain ⟨hlow, _, _, _, _, _⟩ := lookupTag_facts t names hl
            rw [hlow, hl]
            dsimp only
            rw [ih c hszc hwfc]
            dsimp only
            rw [hfix, ih tl hsztl hwftl]
          · subst ha
            rw [hlow2, hl]
            dsimp only
            rw [if_pos hpk,
              if_pos (show ([] : List (String × String)).isEmpty = true
                from rfl)]
            rw [ih c hszc hwfc]
            dsimp only
            rw [ih tl hsztl hwftl]
  intro ns hwf
  exact key (sizeOf ns) ns le_rfl hwf

theorem tokenize_nil (f : Nat) : tokenize f [] = [] := by
  cases f <;> rfl

/-- Parsing the serialization of a fully normalized well-formed forest
recovers the forest. -/
theorem parseHTML_of_normWF (ns : List HtmlNode)
    (hwf : normWFForest ns = true) :
    parseHTML (serializeNodes ns) = ns := by
  unfold parseHTML
  have htok : tokenize ((serializeNodes ns).data.length + 1)
      (serializeNodes ns).data = toksOfForest ns := by
    have h1 := tokenize_serialized ns []
      ((serializeNodes ns).data.length + 1) hwf (Or.inl rfl)
      (by simp)
    rw [List.append_nil] at h1
    rw [h1, tokenize_nil, List.append_nil]
  dsimp only
  rw [htok]
  have hb := buildNodes_toks ns [] [] none ((toksOfForest ns).length + 1)
    hwf (Or.inl ⟨rfl, rfl, rfl⟩) (by simp)
  rw [List.append_nil] at hb
  rw [hb]

/-- C3 counterexample: on a `constructor`-tagged element carrying an
attribute, the attribute loop calls `.includes` on the value inherited
from `Object.prototype`, so `sanitizeHTML` throws a `TypeError` instead
of returning a string — the claimed equation has no value at this
input. -/
theorem sanitizeHTML_idempotent_cex :
    sanitizeHTMLE "<constructor class=\"c\">x</constructor>" =
      .error
        "TypeError: allowedTags[tagName].includes is not a function" := rfl

/-- C3 amended: on every input on which `sanitizeHTML` returns rather
than throwing, its result is a fixed point — re-sanitizing the output
returns the output unchanged (and does not throw). -/
theorem sanitizeHTML_idempotent_amended (h s : String)
    (hok : sanitizeHTMLE h = .ok s) :
    sanitizeHTMLE s = .ok s := by
  unfold sanitizeHTMLE at hok
  cases hE : sanitizeNodesE (parseHTML h) with
  | error e => rw [hE] at hok; cases hok
  | ok out =>
    rw [hE] at hok
    injection hok with hok
    subst hok
    have hp := parseHTML_wfParse h
    have hsan := sanitizeNodesE_wfSan _ hp out hE
    have hnwf := normWF_normalize _ hsan
    unfold sanitizeHTMLE
    rw [← serializeNodes_normalize out, parseHTML_of_normWF _ hnwf,
      sanitizeNodesE_of_normWF _ hnwf]

theorem sanitizeHTML_idempotent_amended_witness :
    sanitizeHTMLE "<p>Hi</p>" = .ok "<p>Hi</p>" :=
  sanitizeHTML_idempotent_amended "<P ONLOAD=\"evil()\">Hi</P>"
    "<p>Hi</p>" rfl
